import Mathlib

/-!
# A shallow embedding of the run-length / Golomb codec of `encode.c`

The C functions `get_run_length_encoding`, `get_run_length_decoding`,
`ceil_log2`, `num_set_bits`, `golomb_encode` and `golomb_decode` are rendered
as Lean functions, loop by loop.

Conventions of the embedding.

* A byte buffer is a `List Nat` whose entries are below 256.
* `unsigned int` and `int` values are `Nat` and `Int`, and the scratch buffers
  have no end.  This is the C code as long as no value reaches 32 bits and no
  store goes behind a scratch buffer: for `get_run_length_encoding` on inputs
  of at most `MAX_INPUT_SIZE` bytes (`rle_state_within_length`,
  `rle_state_within_cells`), and for `get_run_length_decoding` on gaps whose
  bits fit into `rle_buf` (`rld_loop_in_range`).  Statements about all buffers
  or all gap sequences carry these bounds.
* The static scratch buffers `rle_buf` and `golomb_buf` are memories
  `Nat → Nat` indexed by byte address.  Every call that uses one as a byte
  buffer first clears its first `sizeof (unsigned int) * MAX_INPUT_SIZE` bytes
  (`memset_scratch`); what lies behind is whatever an earlier call left there
  and is a parameter `stale` of the embedding.
* `get_run_length_encoding` uses `rle_buf` as an array of `unsigned int` and
  reads back only cells it has written, so the written prefix
  `rle[0 .. rle_index)` is a list and `rle_index` is its length.
* Undefined behaviour that the code can run into is an explicit `Fault`.
* Memory allocation (`malloc`, `memcpy`) is taken to succeed; only
  `get_run_length_decoding_status` takes the outcome of `malloc` as an argument.
* The `float` expression that yields the Golomb parameter in `golomb_encode`
  has no counterpart in this embedding; its value `b` is an argument.
-/

set_option autoImplicit false

namespace GolombCoding

/-- Undefined behaviour made explicit by the embedding. -/
inductive Fault where
  /-- An array cell below index 0 is accessed. -/
  | index_out_of_range
  /-- An integer division by zero is evaluated. -/
  | division_by_zero
  /-- An `int` is shifted by a count that is not below its width. -/
  | shift_out_of_range
  /-- A byte behind the end of the readable input memory is read. -/
  | read_past_end
  deriving DecidableEq, Repr

deriving instance DecidableEq for Except

/-! ## Constants and tables -/

/-- The macro `MAX_INPUT_SIZE` (128 KB). -/
def MAX_INPUT_SIZE : Nat := 131072

/-- The table `rle_lookup[256][9]`, row by row. -/
def rle_lookup : List (List Nat) := [
  [8,0,0,0,0,0,0,0,0], [8,0,0,0,0,0,0,0,0], [7,1,0,0,0,0,0,0,0], [7,1,0,0,0,0,0,0,0],
  [6,2,0,0,0,0,0,0,0], [6,2,0,0,0,0,0,0,0], [6,1,1,0,0,0,0,0,0], [6,1,1,0,0,0,0,0,0],
  [5,3,0,0,0,0,0,0,0], [5,3,0,0,0,0,0,0,0], [5,2,1,0,0,0,0,0,0], [5,2,1,0,0,0,0,0,0],
  [5,1,2,0,0,0,0,0,0], [5,1,2,0,0,0,0,0,0], [5,1,1,1,0,0,0,0,0], [5,1,1,1,0,0,0,0,0],
  [4,4,0,0,0,0,0,0,0], [4,4,0,0,0,0,0,0,0], [4,3,1,0,0,0,0,0,0], [4,3,1,0,0,0,0,0,0],
  [4,2,2,0,0,0,0,0,0], [4,2,2,0,0,0,0,0,0], [4,2,1,1,0,0,0,0,0], [4,2,1,1,0,0,0,0,0],
  [4,1,3,0,0,0,0,0,0], [4,1,3,0,0,0,0,0,0], [4,1,2,1,0,0,0,0,0], [4,1,2,1,0,0,0,0,0],
  [4,1,1,2,0,0,0,0,0], [4,1,1,2,0,0,0,0,0], [4,1,1,1,1,0,0,0,0], [4,1,1,1,1,0,0,0,0],
  [3,5,0,0,0,0,0,0,0], [3,5,0,0,0,0,0,0,0], [3,4,1,0,0,0,0,0,0], [3,4,1,0,0,0,0,0,0],
  [3,3,2,0,0,0,0,0,0], [3,3,2,0,0,0,0,0,0], [3,3,1,1,0,0,0,0,0], [3,3,1,1,0,0,0,0,0],
  [3,2,3,0,0,0,0,0,0], [3,2,3,0,0,0,0,0,0], [3,2,2,1,0,0,0,0,0], [3,2,2,1,0,0,0,0,0],
  [3,2,1,2,0,0,0,0,0], [3,2,1,2,0,0,0,0,0], [3,2,1,1,1,0,0,0,0], [3,2,1,1,1,0,0,0,0],
  [3,1,4,0,0,0,0,0,0], [3,1,4,0,0,0,0,0,0], [3,1,3,1,0,0,0,0,0], [3,1,3,1,0,0,0,0,0],
  [3,1,2,2,0,0,0,0,0], [3,1,2,2,0,0,0,0,0], [3,1,2,1,1,0,0,0,0], [3,1,2,1,1,0,0,0,0],
  [3,1,1,3,0,0,0,0,0], [3,1,1,3,0,0,0,0,0], [3,1,1,2,1,0,0,0,0], [3,1,1,2,1,0,0,0,0],
  [3,1,1,1,2,0,0,0,0], [3,1,1,1,2,0,0,0,0], [3,1,1,1,1,1,0,0,0], [3,1,1,1,1,1,0,0,0],
  [2,6,0,0,0,0,0,0,0], [2,6,0,0,0,0,0,0,0], [2,5,1,0,0,0,0,0,0], [2,5,1,0,0,0,0,0,0],
  [2,4,2,0,0,0,0,0,0], [2,4,2,0,0,0,0,0,0], [2,4,1,1,0,0,0,0,0], [2,4,1,1,0,0,0,0,0],
  [2,3,3,0,0,0,0,0,0], [2,3,3,0,0,0,0,0,0], [2,3,2,1,0,0,0,0,0], [2,3,2,1,0,0,0,0,0],
  [2,3,1,2,0,0,0,0,0], [2,3,1,2,0,0,0,0,0], [2,3,1,1,1,0,0,0,0], [2,3,1,1,1,0,0,0,0],
  [2,2,4,0,0,0,0,0,0], [2,2,4,0,0,0,0,0,0], [2,2,3,1,0,0,0,0,0], [2,2,3,1,0,0,0,0,0],
  [2,2,2,2,0,0,0,0,0], [2,2,2,2,0,0,0,0,0], [2,2,2,1,1,0,0,0,0], [2,2,2,1,1,0,0,0,0],
  [2,2,1,3,0,0,0,0,0], [2,2,1,3,0,0,0,0,0], [2,2,1,2,1,0,0,0,0], [2,2,1,2,1,0,0,0,0],
  [2,2,1,1,2,0,0,0,0], [2,2,1,1,2,0,0,0,0], [2,2,1,1,1,1,0,0,0], [2,2,1,1,1,1,0,0,0],
  [2,1,5,0,0,0,0,0,0], [2,1,5,0,0,0,0,0,0], [2,1,4,1,0,0,0,0,0], [2,1,4,1,0,0,0,0,0],
  [2,1,3,2,0,0,0,0,0], [2,1,3,2,0,0,0,0,0], [2,1,3,1,1,0,0,0,0], [2,1,3,1,1,0,0,0,0],
  [2,1,2,3,0,0,0,0,0], [2,1,2,3,0,0,0,0,0], [2,1,2,2,1,0,0,0,0], [2,1,2,2,1,0,0,0,0],
  [2,1,2,1,2,0,0,0,0], [2,1,2,1,2,0,0,0,0], [2,1,2,1,1,1,0,0,0], [2,1,2,1,1,1,0,0,0],
  [2,1,1,4,0,0,0,0,0], [2,1,1,4,0,0,0,0,0], [2,1,1,3,1,0,0,0,0], [2,1,1,3,1,0,0,0,0],
  [2,1,1,2,2,0,0,0,0], [2,1,1,2,2,0,0,0,0], [2,1,1,2,1,1,0,0,0], [2,1,1,2,1,1,0,0,0],
  [2,1,1,1,3,0,0,0,0], [2,1,1,1,3,0,0,0,0], [2,1,1,1,2,1,0,0,0], [2,1,1,1,2,1,0,0,0],
  [2,1,1,1,1,2,0,0,0], [2,1,1,1,1,2,0,0,0], [2,1,1,1,1,1,1,0,0], [2,1,1,1,1,1,1,0,0],
  [1,7,0,0,0,0,0,0,0], [1,7,0,0,0,0,0,0,0], [1,6,1,0,0,0,0,0,0], [1,6,1,0,0,0,0,0,0],
  [1,5,2,0,0,0,0,0,0], [1,5,2,0,0,0,0,0,0], [1,5,1,1,0,0,0,0,0], [1,5,1,1,0,0,0,0,0],
  [1,4,3,0,0,0,0,0,0], [1,4,3,0,0,0,0,0,0], [1,4,2,1,0,0,0,0,0], [1,4,2,1,0,0,0,0,0],
  [1,4,1,2,0,0,0,0,0], [1,4,1,2,0,0,0,0,0], [1,4,1,1,1,0,0,0,0], [1,4,1,1,1,0,0,0,0],
  [1,3,4,0,0,0,0,0,0], [1,3,4,0,0,0,0,0,0], [1,3,3,1,0,0,0,0,0], [1,3,3,1,0,0,0,0,0],
  [1,3,2,2,0,0,0,0,0], [1,3,2,2,0,0,0,0,0], [1,3,2,1,1,0,0,0,0], [1,3,2,1,1,0,0,0,0],
  [1,3,1,3,0,0,0,0,0], [1,3,1,3,0,0,0,0,0], [1,3,1,2,1,0,0,0,0], [1,3,1,2,1,0,0,0,0],
  [1,3,1,1,2,0,0,0,0], [1,3,1,1,2,0,0,0,0], [1,3,1,1,1,1,0,0,0], [1,3,1,1,1,1,0,0,0],
  [1,2,5,0,0,0,0,0,0], [1,2,5,0,0,0,0,0,0], [1,2,4,1,0,0,0,0,0], [1,2,4,1,0,0,0,0,0],
  [1,2,3,2,0,0,0,0,0], [1,2,3,2,0,0,0,0,0], [1,2,3,1,1,0,0,0,0], [1,2,3,1,1,0,0,0,0],
  [1,2,2,3,0,0,0,0,0], [1,2,2,3,0,0,0,0,0], [1,2,2,2,1,0,0,0,0], [1,2,2,2,1,0,0,0,0],
  [1,2,2,1,2,0,0,0,0], [1,2,2,1,2,0,0,0,0], [1,2,2,1,1,1,0,0,0], [1,2,2,1,1,1,0,0,0],
  [1,2,1,4,0,0,0,0,0], [1,2,1,4,0,0,0,0,0], [1,2,1,3,1,0,0,0,0], [1,2,1,3,1,0,0,0,0],
  [1,2,1,2,2,0,0,0,0], [1,2,1,2,2,0,0,0,0], [1,2,1,2,1,1,0,0,0], [1,2,1,2,1,1,0,0,0],
  [1,2,1,1,3,0,0,0,0], [1,2,1,1,3,0,0,0,0], [1,2,1,1,2,1,0,0,0], [1,2,1,1,2,1,0,0,0],
  [1,2,1,1,1,2,0,0,0], [1,2,1,1,1,2,0,0,0], [1,2,1,1,1,1,1,0,0], [1,2,1,1,1,1,1,0,0],
  [1,1,6,0,0,0,0,0,0], [1,1,6,0,0,0,0,0,0], [1,1,5,1,0,0,0,0,0], [1,1,5,1,0,0,0,0,0],
  [1,1,4,2,0,0,0,0,0], [1,1,4,2,0,0,0,0,0], [1,1,4,1,1,0,0,0,0], [1,1,4,1,1,0,0,0,0],
  [1,1,3,3,0,0,0,0,0], [1,1,3,3,0,0,0,0,0], [1,1,3,2,1,0,0,0,0], [1,1,3,2,1,0,0,0,0],
  [1,1,3,1,2,0,0,0,0], [1,1,3,1,2,0,0,0,0], [1,1,3,1,1,1,0,0,0], [1,1,3,1,1,1,0,0,0],
  [1,1,2,4,0,0,0,0,0], [1,1,2,4,0,0,0,0,0], [1,1,2,3,1,0,0,0,0], [1,1,2,3,1,0,0,0,0],
  [1,1,2,2,2,0,0,0,0], [1,1,2,2,2,0,0,0,0], [1,1,2,2,1,1,0,0,0], [1,1,2,2,1,1,0,0,0],
  [1,1,2,1,3,0,0,0,0], [1,1,2,1,3,0,0,0,0], [1,1,2,1,2,1,0,0,0], [1,1,2,1,2,1,0,0,0],
  [1,1,2,1,1,2,0,0,0], [1,1,2,1,1,2,0,0,0], [1,1,2,1,1,1,1,0,0], [1,1,2,1,1,1,1,0,0],
  [1,1,1,5,0,0,0,0,0], [1,1,1,5,0,0,0,0,0], [1,1,1,4,1,0,0,0,0], [1,1,1,4,1,0,0,0,0],
  [1,1,1,3,2,0,0,0,0], [1,1,1,3,2,0,0,0,0], [1,1,1,3,1,1,0,0,0], [1,1,1,3,1,1,0,0,0],
  [1,1,1,2,3,0,0,0,0], [1,1,1,2,3,0,0,0,0], [1,1,1,2,2,1,0,0,0], [1,1,1,2,2,1,0,0,0],
  [1,1,1,2,1,2,0,0,0], [1,1,1,2,1,2,0,0,0], [1,1,1,2,1,1,1,0,0], [1,1,1,2,1,1,1,0,0],
  [1,1,1,1,4,0,0,0,0], [1,1,1,1,4,0,0,0,0], [1,1,1,1,3,1,0,0,0], [1,1,1,1,3,1,0,0,0],
  [1,1,1,1,2,2,0,0,0], [1,1,1,1,2,2,0,0,0], [1,1,1,1,2,1,1,0,0], [1,1,1,1,2,1,1,0,0],
  [1,1,1,1,1,3,0,0,0], [1,1,1,1,1,3,0,0,0], [1,1,1,1,1,2,1,0,0], [1,1,1,1,1,2,1,0,0],
  [1,1,1,1,1,1,2,0,0], [1,1,1,1,1,1,2,0,0], [1,1,1,1,1,1,1,1,0], [1,1,1,1,1,1,1,1,0]]

/-- The table `rle_lookup_sizes[256]`. -/
def rle_lookup_sizes : List Nat := [
  2, 1, 3, 2, 3, 2, 4, 3, 3, 2, 4, 3, 4, 3, 5, 4,
  3, 2, 4, 3, 4, 3, 5, 4, 4, 3, 5, 4, 5, 4, 6, 5,
  3, 2, 4, 3, 4, 3, 5, 4, 4, 3, 5, 4, 5, 4, 6, 5,
  4, 3, 5, 4, 5, 4, 6, 5, 5, 4, 6, 5, 6, 5, 7, 6,
  3, 2, 4, 3, 4, 3, 5, 4, 4, 3, 5, 4, 5, 4, 6, 5,
  4, 3, 5, 4, 5, 4, 6, 5, 5, 4, 6, 5, 6, 5, 7, 6,
  4, 3, 5, 4, 5, 4, 6, 5, 5, 4, 6, 5, 6, 5, 7, 6,
  5, 4, 6, 5, 6, 5, 7, 6, 6, 5, 7, 6, 7, 6, 8, 7,
  3, 2, 4, 3, 4, 3, 5, 4, 4, 3, 5, 4, 5, 4, 6, 5,
  4, 3, 5, 4, 5, 4, 6, 5, 5, 4, 6, 5, 6, 5, 7, 6,
  4, 3, 5, 4, 5, 4, 6, 5, 5, 4, 6, 5, 6, 5, 7, 6,
  5, 4, 6, 5, 6, 5, 7, 6, 6, 5, 7, 6, 7, 6, 8, 7,
  4, 3, 5, 4, 5, 4, 6, 5, 5, 4, 6, 5, 6, 5, 7, 6,
  5, 4, 6, 5, 6, 5, 7, 6, 6, 5, 7, 6, 7, 6, 8, 7,
  5, 4, 6, 5, 6, 5, 7, 6, 6, 5, 7, 6, 7, 6, 8, 7,
  6, 5, 7, 6, 7, 6, 8, 7, 7, 6, 8, 7, 8, 7, 9, 8]

/-- The table `set_bits_lookup_table[256]`. -/
def set_bits_lookup_table : List Nat := [
  0, 1, 1, 2, 1, 2, 2, 3, 1, 2, 2, 3, 2, 3, 3, 4,
  1, 2, 2, 3, 2, 3, 3, 4, 2, 3, 3, 4, 3, 4, 4, 5,
  1, 2, 2, 3, 2, 3, 3, 4, 2, 3, 3, 4, 3, 4, 4, 5,
  2, 3, 3, 4, 3, 4, 4, 5, 3, 4, 4, 5, 4, 5, 5, 6,
  1, 2, 2, 3, 2, 3, 3, 4, 2, 3, 3, 4, 3, 4, 4, 5,
  2, 3, 3, 4, 3, 4, 4, 5, 3, 4, 4, 5, 4, 5, 5, 6,
  2, 3, 3, 4, 3, 4, 4, 5, 3, 4, 4, 5, 4, 5, 5, 6,
  3, 4, 4, 5, 4, 5, 5, 6, 4, 5, 5, 6, 5, 6, 6, 7,
  1, 2, 2, 3, 2, 3, 3, 4, 2, 3, 3, 4, 3, 4, 4, 5,
  2, 3, 3, 4, 3, 4, 4, 5, 3, 4, 4, 5, 4, 5, 5, 6,
  2, 3, 3, 4, 3, 4, 4, 5, 3, 4, 4, 5, 4, 5, 5, 6,
  3, 4, 4, 5, 4, 5, 5, 6, 4, 5, 5, 6, 5, 6, 6, 7,
  2, 3, 3, 4, 3, 4, 4, 5, 3, 4, 4, 5, 4, 5, 5, 6,
  3, 4, 4, 5, 4, 5, 5, 6, 4, 5, 5, 6, 5, 6, 6, 7,
  3, 4, 4, 5, 4, 5, 5, 6, 4, 5, 5, 6, 5, 6, 6, 7,
  4, 5, 5, 6, 5, 6, 6, 7, 5, 6, 6, 7, 6, 7, 7, 8]

/-- The cell `rle_lookup[v][j]`. -/
def rle_lookup_at (v j : Nat) : Nat := (rle_lookup.getD v []).getD j 0

/-- The cell `rle_lookup_sizes[v]`. -/
def rle_lookup_size (v : Nat) : Nat := rle_lookup_sizes.getD v 0

/-- A scratch buffer after `memset (buf, 0, sizeof (unsigned int) * MAX_INPUT_SIZE)`:
the first `4 * MAX_INPUT_SIZE` bytes are zero, the bytes behind keep their old
contents. -/
def memset_scratch (stale : Nat → Nat) : Nat → Nat :=
  fun a => if a < 4 * MAX_INPUT_SIZE then 0 else stale a % 256

/-- Store into an `unsigned char` cell: the value is cut to 8 bits. -/
def write_byte (buf : Nat → Nat) (a v : Nat) : Nat → Nat :=
  fun i => if i = a then v % 256 else buf i

/-! ## Run-length encoding -/

/-- The loop state of `get_run_length_encoding`: `rle` is `rle[0 .. rle_index)`,
so `rle_index = rle.length`.  The list has no bound and its cells are natural
numbers; the C array has `10 * MAX_INPUT_SIZE` cells of 32 bits, which an input
of at most `MAX_INPUT_SIZE` bytes neither fills nor overflows. -/
structure RleState where
  rle : List Nat
  need_to_splice : Bool
  deriving DecidableEq, Repr

/-- The two statements `rle[rle_index - 2] += x; rle_index--;`. -/
def rle_splice (x : Nat) (rle : List Nat) : Except Fault (List Nat) :=
  if 2 ≤ rle.length then
    .ok ((rle.set (rle.length - 2) (rle.getD (rle.length - 2) 0 + x)).take (rle.length - 1))
  else .error .index_out_of_range

/-- The body of the loop over `j` for the byte `v`. -/
def rle_inner (v : Nat) (s : RleState) (j : Nat) : Except Fault RleState :=
  if j = 0 ∧ s.need_to_splice = true then
    if rle_lookup_at v 0 > 1 then
      match rle_splice (rle_lookup_at v 0) s.rle with
      | .ok r => .ok ⟨r, false⟩
      | .error e => .error e
    else
      match rle_splice 1 s.rle with
      | .ok r => .ok ⟨r, false⟩
      | .error e => .error e
  else .ok ⟨s.rle ++ [rle_lookup_at v j], s.need_to_splice⟩

/-- The loop `for (j = 0; j < rle_lookup_sizes[v]; ++j)`, run over the values
of `j` still to come. -/
def rle_for (v : Nat) : List Nat → RleState → Except Fault RleState
  | [], s => .ok s
  | j :: js, s =>
    match rle_inner v s j with
    | .ok s1 => rle_for v js s1
    | .error e => .error e

/-- All iterations of the loop over `j` for the byte `v`. -/
def rle_byte (v : Nat) (s : RleState) : Except Fault RleState :=
  rle_for v (List.range (rle_lookup_size v)) s

/-- The statement `if (rle[rle_index - 1] == 0) need_to_splice = 1;`. -/
def rle_mark (s : RleState) : Except Fault RleState :=
  match s.rle.getLast? with
  | none => .error .index_out_of_range
  | some x => .ok (if x = 0 then ⟨s.rle, true⟩ else s)

/-- The loop `for (i = 0; i < size; ++i)` over the input bytes. -/
def rle_bytes : List Nat → RleState → Except Fault RleState
  | [], s => .ok s
  | v :: vs, s =>
    match rle_byte v s with
    | .error e => .error e
    | .ok s1 =>
      match rle_mark s1 with
      | .error e => .error e
      | .ok s2 => rle_bytes vs s2

/-- The function `get_run_length_encoding`: all input bytes, then the byte
`allones = 255`; the result is `rle[0 .. rle_index)` and `*outsize` is its
length. -/
def get_run_length_encoding (input : List Nat) : Except Fault (List Nat) :=
  match rle_bytes input ⟨[], false⟩ with
  | .error e => .error e
  | .ok s =>
    match rle_byte 255 s with
    | .error e => .error e
    | .ok s1 => .ok s1.rle

/-! ## Run-length decoding -/

/-- The loop state of `get_run_length_decoding`; `currbyte` points at byte
`bytecounter - 1` of `rle_buf`. -/
structure RldState where
  buf : Nat → Nat
  currindex : Nat
  bytecounter : Nat

/-- The loop `while (currindex > 8) { currbyte++; currindex -= 8; bytecounter++; }`;
the first argument bounds the number of iterations. -/
def rld_while : Nat → Nat → Nat → Nat × Nat
  | 0, currindex, bytecounter => (currindex, bytecounter)
  | fuel + 1, currindex, bytecounter =>
    if currindex > 8 then rld_while fuel (currindex - 8) (bytecounter + 1)
    else (currindex, bytecounter)

/-- One iteration of the loop over the gaps: `currindex += in[i]`, the inner
loop, and `*currbyte |= 1 << (8 - currindex)`.  The numbers have no bound; the
C loop adds an `unsigned int` to an `int` and stores into the
`4 * (10 * MAX_INPUT_SIZE)` bytes of `rle_buf`, which is the same as long as
the bits of the gaps fit into `rle_buf`. -/
def rld_step (s : RldState) (x : Nat) : RldState :=
  let p := rld_while (s.currindex + x) (s.currindex + x) s.bytecounter
  { buf := write_byte s.buf (p.2 - 1) (s.buf (p.2 - 1) ||| (1 <<< (8 - p.1)))
    currindex := p.1
    bytecounter := p.2 }

/-- The loop of `get_run_length_decoding` over all gaps. -/
def rld_loop (stale : Nat → Nat) (input : List Nat) : RldState :=
  input.foldl rld_step ⟨memset_scratch stale, 0, 1⟩

/-- The function `get_run_length_decoding`: the first `bytecounter - 1` bytes
of the buffer, and `*outsize = bytecounter - 1`. -/
def get_run_length_decoding (stale : Nat → Nat) (input : List Nat) : List Nat × Nat :=
  let s := rld_loop stale input
  ((List.range (s.bytecounter - 1)).map s.buf, s.bytecounter - 1)

/-! ## Golomb coding -/

/-- The loop `while (tmp)` of `ceil_log2` on `tmp`, `last`, `secondlast` and
`count`; it returns `last` and `secondlast`.  The first argument bounds the
number of iterations. -/
def ceil_log2_loop : Nat → Nat → Int → Int → Int → Int × Int
  | 0, _, last, secondlast, _ => (last, secondlast)
  | fuel + 1, tmp, last, secondlast, count =>
    if tmp = 0 then (last, secondlast)
    else if tmp &&& 1 ≠ 0 then ceil_log2_loop fuel (tmp >>> 1) count last (count + 1)
    else ceil_log2_loop fuel (tmp >>> 1) last secondlast (count + 1)

/-- The function `ceil_log2` on `b ≥ 0`; the loop runs once per binary digit of
`b`, which is at most `b` times. -/
def ceil_log2 (b : Nat) : Int :=
  let p := ceil_log2_loop b b (-1) (-1) 0
  if p.2 = -1 then p.1 else p.1 + 1

/-- Conversion of an `int` to `unsigned int`, as in `log2_b = ceil_log2 (b)`. -/
def to_unsigned (x : Int) : Nat := (x % 4294967296).toNat

/-- The function `num_set_bits`. -/
def num_set_bits (input : List Nat) : Nat :=
  input.foldl (fun count v => count + set_bits_lookup_table.getD v 0) 0

/-- The number `setbits = size * 8 - num_set_bits (in, size)` of `golomb_encode`:
the count of zero bits of the input. -/
def zero_bits (input : List Nat) : Nat := input.length * 8 - num_set_bits input

/-- The write cursor of `golomb_encode`; `currbyte` points at byte
`bytecounter` of `golomb_buf`. -/
structure PutState where
  buf : Nat → Nat
  bytecounter : Nat
  currindex : Nat

/-- The statement `if (currindex >= 8) { currbyte++; bytecounter++; currindex -= 8; }`. -/
def put_carry (s : PutState) : PutState :=
  if s.currindex ≥ 8 then
    { s with bytecounter := s.bytecounter + 1, currindex := s.currindex - 8 }
  else s

/-- The statement `*currbyte |= 1 << (7 - currindex);`. -/
def put_set (s : PutState) : PutState :=
  { buf := write_byte s.buf s.bytecounter (s.buf s.bytecounter ||| (1 <<< (7 - s.currindex)))
    bytecounter := s.bytecounter
    currindex := s.currindex }

/-- The statements `currindex++;` and the carry into the next byte. -/
def put_next (s : PutState) : PutState :=
  put_carry { s with currindex := s.currindex + 1 }

/-- The loop `++q; while (--q) { ... }` that writes `q` one-bits. -/
def put_unary : Nat → PutState → PutState
  | 0, s => s
  | q + 1, s => put_unary q (put_next (put_set s))

/-- The macro `PUT_ONE_INTEGER (x, nbits)`: the bits `nbits - 1, ..., 0` of `x`
in this order. -/
def PUT_ONE_INTEGER (x : Int) : Nat → PutState → PutState
  | 0, s => s
  | i + 1, s => PUT_ONE_INTEGER x i (put_next (if (x >>> i) % 2 = 1 then put_set s else s))

/-- One iteration of the main loop of `golomb_encode` for the gap `v`.  With
`log2_b = 0` the width `log2_b - 1` wraps around and the loop of the macro,
whose counter is an `int`, does not run: no bit is written, as with the
truncated subtraction used here. -/
def golomb_encode_symbol (b log2_b : Nat) (s : PutState) (v : Nat) : Except Fault PutState :=
  if b = 0 then .error .division_by_zero
  else
    let q : Nat := (v - 1) / b
    let r : Int := (v : Int) - (q : Int) * (b : Int)
    let s1 := put_next (put_unary q s)
    let d : Int := ((1 <<< log2_b : Nat) : Int) - (b : Int)
    if r > d then .ok (PUT_ONE_INTEGER (r - 1 + d) log2_b s1)
    else .ok (PUT_ONE_INTEGER (r - 1) (log2_b - 1) s1)

/-- The main loop of `golomb_encode` over the gaps. -/
def golomb_encode_loop (b log2_b : Nat) : List Nat → PutState → Except Fault PutState
  | [], s => .ok s
  | v :: vs, s =>
    match golomb_encode_symbol b log2_b s v with
    | .error e => .error e
    | .ok s1 => golomb_encode_loop b log2_b vs s1

/-- The function `golomb_encode`, given the value `b` of its `float`
expression: the packed bytes `golomb_buf[0 .. bytecounter)`; `*outsize` is
their number and `*golomb_param` is `b`. -/
def golomb_encode (stale : Nat → Nat) (b : Nat) (input : List Nat) : Except Fault (List Nat) :=
  match get_run_length_encoding input with
  | .error e => .error e
  | .ok rle =>
    match golomb_encode_loop b (to_unsigned (ceil_log2 b)) rle ⟨memset_scratch stale, 0, 0⟩ with
    | .error e => .error e
    | .ok s => .ok ((List.range s.bytecounter).map s.buf)

/-- The read cursor of `golomb_decode`; `currbyte` points at byte `bytecounter`
of the input. -/
structure GetState where
  bytecounter : Nat
  currindex : Nat
  deriving DecidableEq, Repr

/-- The carry of the read cursor into the next byte. -/
def get_carry (c : GetState) : GetState :=
  if c.currindex ≥ 8 then ⟨c.bytecounter + 1, c.currindex - 8⟩ else c

/-- The statements `currindex++;` and the carry, for the read cursor. -/
def get_next (c : GetState) : GetState :=
  get_carry ⟨c.bytecounter, c.currindex + 1⟩

/-- The test `*currbyte & (1 << (7 - currindex))` on the readable memory `mem`
that starts at the input pointer. -/
def get_bit (mem : List Nat) (c : GetState) : Except Fault Bool :=
  match mem.get? c.bytecounter with
  | none => .error .read_past_end
  | some byte => .ok (decide (byte &&& (1 <<< (7 - c.currindex)) ≠ 0))

/-- The loop `while (*currbyte & (1 << (7 - currindex++))) { ++q; ... }`: it
returns `q` and the cursor after the increment made by the last test, before
the carry.  The first argument bounds the number of tests; every test reads a
new bit of `mem`. -/
def unary_decode (mem : List Nat) : Nat → GetState → Nat → Except Fault (Nat × GetState)
  | 0, _, _ => .error .read_past_end
  | fuel + 1, c, q =>
    match get_bit mem c with
    | .error e => .error e
    | .ok true => unary_decode mem fuel (get_carry ⟨c.bytecounter, c.currindex + 1⟩) (q + 1)
    | .ok false => .ok (q, ⟨c.bytecounter, c.currindex + 1⟩)

/-- The loop of the macro `GET_ONE_INTEGER (nbits)`, started with `x = 0`. -/
def GET_ONE_INTEGER (mem : List Nat) : Nat → GetState → Int → Except Fault (Int × GetState)
  | 0, c, x => .ok (x, c)
  | i + 1, c, x =>
    match get_bit mem c with
    | .error e => .error e
    | .ok bit => GET_ONE_INTEGER mem i (get_next c) (2 * x + (if bit then 1 else 0))

/-- One iteration of the main loop of `golomb_decode`: the decoded gap and the
cursor behind it.  With `b = 0` the shift count `log2_b` is `(unsigned) -1`.
With `log2_b = 0` the width `log2_b - 1` wraps around and the loop of
`GET_ONE_INTEGER` does not run. -/
def golomb_decode_symbol (mem : List Nat) (b log2_b : Nat) (c : GetState) :
    Except Fault (Nat × GetState) :=
  match unary_decode mem (8 * mem.length + 1) c 0 with
  | .error e => .error e
  | .ok (q, c1) =>
    if b = 0 then .error .shift_out_of_range
    else
      let c2 := get_carry c1
      let d : Int := ((1 <<< log2_b : Nat) : Int) - (b : Int)
      match GET_ONE_INTEGER mem (log2_b - 1) c2 0 with
      | .error e => .error e
      | .ok (x, c3) =>
        if x + 1 > d then
          match get_bit mem c3 with
          | .error e => .error e
          | .ok bit =>
            let x1 : Int := 2 * x + (if bit then 1 else 0) - d
            .ok ((x1 + 1 + (q : Int) * (b : Int)).toNat, get_next c3)
        else .ok ((x + 1 + (q : Int) * (b : Int)).toNat, c3)

/-- The loop `while (bytecounter < size)` of `golomb_decode`; `gd` collects the
decoded gaps.  The first argument bounds the number of iterations; every
iteration reads a new bit of `mem`. -/
def golomb_decode_loop (mem : List Nat) (size b log2_b : Nat) :
    Nat → GetState → List Nat → Except Fault (List Nat)
  | 0, _, _ => .error .read_past_end
  | fuel + 1, c, gd =>
    if c.bytecounter < size then
      match golomb_decode_symbol mem b log2_b c with
      | .error e => .error e
      | .ok (v, c1) => golomb_decode_loop mem size b log2_b fuel c1 (gd ++ [v])
    else .ok gd

/-- The gaps that `golomb_decode` hands to `get_run_length_decoding`. -/
def golomb_decode_gaps (mem : List Nat) (size b : Nat) : Except Fault (List Nat) :=
  golomb_decode_loop mem size b (to_unsigned (ceil_log2 b)) (8 * mem.length + 1) ⟨0, 0⟩ []

/-- The function `golomb_decode` on the readable memory `mem` at the input
pointer, the length `size` and the parameter `b`: the decoded bytes and
`*outsize`.  `stale` is the old content of `rle_buf`. -/
def golomb_decode (stale : Nat → Nat) (mem : List Nat) (size b : Nat) :
    Except Fault (List Nat × Nat) :=
  match golomb_decode_gaps mem size b with
  | .error e => .error e
  | .ok gd => .ok (get_run_length_decoding stale gd)

/-! ## Bit strings and gaps (the vocabulary of the statements) -/

/-- The eight bits of a byte, most significant bit first. -/
def byte_bits (v : Nat) : List Bool :=
  (List.range 8).map (fun i => v.testBit (7 - i))

/-- The bit string of a byte buffer: the bytes in order, each most significant
bit first. -/
def buffer_bits : List Nat → List Bool
  | [] => []
  | v :: vs => byte_bits v ++ buffer_bits vs

/-- The gaps of a bit string: for each set bit the number of positions scanned
since the previous set bit, the set bit included; `c` zero bits have been
scanned already. -/
def gaps_from (c : Nat) : List Bool → List Nat
  | [] => []
  | true :: bs => (c + 1) :: gaps_from 0 bs
  | false :: bs => gaps_from (c + 1) bs

/-- The number of zero bits scanned since the last set bit when the bit string
ends, starting from `c`. -/
def pending_from (c : Nat) : List Bool → Nat
  | [] => c
  | true :: bs => pending_from 0 bs
  | false :: bs => pending_from (c + 1) bs

/-- The running sums of a list, in order, starting above `acc`. -/
def prefix_sums (acc : Nat) : List Nat → List Nat
  | [] => []
  | x :: xs => (acc + x) :: prefix_sums (acc + x) xs

/-- The positions of the set bits of a bit string, in order; the first bit of
the string has position `p + 1`. -/
def set_bit_positions (p : Nat) : List Bool → List Nat
  | [] => []
  | true :: bs => (p + 1) :: set_bit_positions (p + 1) bs
  | false :: bs => set_bit_positions (p + 1) bs

/-- The valid part of a table row: `rle_lookup[v][0 .. rle_lookup_sizes[v])`,
read cell by cell as the encoder does. -/
def rle_row (v : Nat) : List Nat :=
  (List.range (rle_lookup_size v)).map (rle_lookup_at v)

/-- What a byte leaves at the end of `rle` when it ends in `c` zero bits: the
pair `c, 0`. -/
def splice_marker (c : Nat) : List Nat := if c = 0 then [] else [c, 0]

/-- The loop state of `get_run_length_encoding` between two bytes, after gaps
`g` have been completed and `c` zero bits are pending. -/
def rle_state_of (g : List Nat) (c : Nat) : RleState :=
  if c = 0 then ⟨g, false⟩ else ⟨g ++ [c, 0], true⟩

/-- The cursor of the decoder after `P` bit positions have been passed. -/
def rld_at (s : RldState) (P : Nat) : Prop :=
  s.currindex = P - 8 * ((P - 1) / 8) ∧ s.bytecounter = (P - 1) / 8 + 1

/-- Two decoder states with the same cursor whose buffers agree below `N`. -/
def rld_agree (N : Nat) (s t : RldState) : Prop :=
  s.currindex = t.currindex ∧ s.bytecounter = t.bytecounter ∧ ∀ a, a < N → s.buf a = t.buf a

/-- Two write cursors at the same place whose buffers agree below `N`. -/
def put_agree (N : Nat) (s t : PutState) : Prop :=
  s.bytecounter = t.bytecounter ∧ s.currindex = t.currindex ∧ ∀ a, a < N → s.buf a = t.buf a

/-- The number of bits written so far, as told by the write cursor. -/
def put_pos (s : PutState) : Nat := 8 * s.bytecounter + s.currindex

/-- The number of bits of the code word of the gap `v`: `q` one-bits, the zero
bit, and the remainder in `log2_b` or `log2_b - 1` bits. -/
def codeword_length (b log2_b v : Nat) : Nat :=
  let q : Nat := (v - 1) / b
  let r : Int := (v : Int) - (q : Int) * (b : Int)
  let d : Int := ((1 <<< log2_b : Nat) : Int) - (b : Int)
  q + 1 + (if r > d then log2_b else log2_b - 1)

/-- Bit `p` (counted from 0) of a memory of bytes, most significant bit of each
byte first. -/
def bit_at (buf : Nat → Nat) (p : Nat) : Bool := (buf (p / 8)).testBit (7 - p % 8)

/-- The bits `n - 1, ..., 0` of `x`, in this order. -/
def int_bits (x : Int) : Nat → List Bool
  | 0 => []
  | i + 1 => decide ((x >>> i) % 2 = 1) :: int_bits x i

/-- The code word of the gap `v`: `q` one-bits, a zero bit, and the remainder
in `log2_b` or `log2_b - 1` bits. -/
def codeword_bits (b log2_b v : Nat) : List Bool :=
  let q : Nat := (v - 1) / b
  let r : Int := (v : Int) - (q : Int) * (b : Int)
  let d : Int := ((1 <<< log2_b : Nat) : Int) - (b : Int)
  List.replicate q true ++
    false :: (if r > d then int_bits (r - 1 + d) log2_b else int_bits (r - 1) (log2_b - 1))

/-- The write cursor went from `s` to `s1` and wrote the bits `L` behind the
position of `s`: set bits of `L` are or-ed into the buffer, nothing else
changes. -/
def emits (s s1 : PutState) (L : List Bool) : Prop :=
  put_pos s1 = put_pos s + L.length ∧ s1.currindex < 8 ∧
    ∀ p, bit_at s1.buf p =
      (bit_at s.buf p || (decide (put_pos s ≤ p) && L.getD (p - put_pos s) false))

/-- The number of bits read so far, as told by the read cursor. -/
def get_pos (c : GetState) : Nat := 8 * c.bytecounter + c.currindex

/-- The value of a bit string read most significant bit first into `x`, as
`x = (x << 1) | bit` does. -/
def bits_value (x : Int) : List Bool → Int
  | [] => x
  | bit :: bs => bits_value (2 * x + (if bit then 1 else 0)) bs

/-- The read cursor `c` is inside a byte and the bits of `mem` from its
position on are `L`. -/
def reads (mem : List Nat) (c : GetState) (L : List Bool) : Prop :=
  c.currindex < 8 ∧ (buffer_bits mem).drop (get_pos c) = L

/-- The direct decomposition of the byte `v`, scanned from its most significant
bit: one entry per set bit, its distance from the previous set bit or from the
start of the byte, and, when the byte ends in `t ≥ 1` zero bits, the entry `t`
and the marker 0. -/
def byte_runs (v : Nat) : List Nat :=
  gaps_from 0 (byte_bits v) ++
    (if pending_from 0 (byte_bits v) = 0 then [] else [pending_from 0 (byte_bits v), 0])

/-- The quotient `q = (rle[i] - 1) / b` of `golomb_encode`. -/
def golomb_quotient (b v : Nat) : Nat := (v - 1) / b

/-- The remainder `r = rle[i] - q * b` of `golomb_encode`. -/
def golomb_remainder (b v : Nat) : Int := (v : Int) - (golomb_quotient b v : Int) * (b : Int)

/-- The value that `get_run_length_decoding` returns: 1 when `malloc (*outsize)`
yields a null pointer and 0 otherwise; `malloc_null n` tells whether the
allocation of `n` bytes yields a null pointer. -/
def get_run_length_decoding_status (malloc_null : Nat → Bool) (stale : Nat → Nat)
    (input : List Nat) : Nat :=
  if malloc_null (get_run_length_decoding stale input).2 then 1 else 0

/-- The code words of a gap sequence, one behind the other, as the main loop of
`golomb_encode` writes them. -/
def code_bits (b log2_b : Nat) : List Nat → List Bool
  | [] => []
  | v :: vs => codeword_bits b log2_b v ++ code_bits b log2_b vs

/-- The number `x` in `n` binary digits, most significant digit first. -/
def nat_bits (x : Nat) : Nat → List Bool
  | 0 => []
  | i + 1 => x.testBit i :: nat_bits x i

/-- The least `k ≥ k0` with `b ≤ 2 ^ k`, searched upwards from `k0`; the first
argument bounds the number of steps. -/
def least_exponent_from (b : Nat) : Nat → Nat → Nat
  | 0, k0 => k0
  | fuel + 1, k0 => if b ≤ 2 ^ k0 then k0 else least_exponent_from b fuel (k0 + 1)

/-- The number `ceil (log2 b)`: the least `k` with `b ≤ 2 ^ k`. -/
def ceil_log2_exact (b : Nat) : Nat := least_exponent_from b b 0

/-- The code word of the gap `v` in the words of the specification: with
`q = (v - 1) / b`, `r = v - q * b`, `k = ceil (log2 b)` and `d = 2 ^ k - b`, it
is `q` one-bits, a zero-bit, and then `r - 1 + d` in `k` bits if `r > d` and
`r - 1` in `k - 1` bits otherwise. -/
def spec_codeword (b v : Nat) : List Bool :=
  let q := (v - 1) / b
  let r := v - q * b
  let k := ceil_log2_exact b
  let d := 2 ^ k - b
  List.replicate q true ++ [false] ++
    (if r > d then nat_bits (r - 1 + d) k else nat_bits (r - 1) (k - 1))

/-- The code of a gap sequence in the words of the specification: the code
words of the gaps in order. -/
def spec_code (b : Nat) : List Nat → List Bool
  | [] => []
  | v :: vs => spec_codeword b v ++ spec_code b vs

/-- Bit `j` of a byte buffer, counted from 1 over the whole buffer, most
significant bit of each byte first. -/
def output_bit (out : List Nat) (j : Nat) : Bool :=
  (out.getD ((j - 1) / 8) 0).testBit (7 - (j - 1) % 8)

/-- The state of the loops of `get_run_length_encoding` after the bytes `B1`
have been processed and the loop over `j` has made `j` iterations for the next
byte `v`.  The next write of that loop goes to `rle[rle_index]`, and
`rle_index` is the length of `rle` in this state. -/
def rle_state_within (B1 : List Nat) (v j : Nat) : Except Fault RleState :=
  match rle_bytes B1 ⟨[], false⟩ with
  | .error e => .error e
  | .ok s => rle_for v (List.range j) s

/-- The value `d = (1 << log2_b) - b` of `golomb_encode`. -/
def golomb_d (b log2_b : Nat) : Int := ((1 <<< log2_b : Nat) : Int) - (b : Int)

/-- A gap sequence without its entries 0. -/
def drop_zero_gaps (g : List Nat) : List Nat := g.filter (fun x => x != 0)

/-! # Theorems -/

/-! ## The lookup table -/

set_option maxRecDepth 100000 in
theorem rle_row_eq_take : ∀ v, v < 256 →
    rle_row v = (rle_lookup.getD v []).take (rle_lookup_size v) := by decide

set_option maxRecDepth 100000 in
theorem rle_row_spec : ∀ v, v < 256 →
    rle_row v = gaps_from 0 (byte_bits v) ++ splice_marker (pending_from 0 (byte_bits v)) := by
  decide

set_option maxRecDepth 100000 in
theorem rle_lookup_size_pos : ∀ v, v < 256 → 1 ≤ rle_lookup_size v := by decide

theorem byte_bits_allones : byte_bits 255 = List.replicate 8 true := by decide

theorem byte_bits_length (v : Nat) : (byte_bits v).length = 8 := by
  simp [byte_bits]

/-! ## The encoder, byte by byte -/

theorem getD_append_pair (t z : Nat) (pre : List Nat) :
    (pre ++ [t, z]).getD pre.length 0 = t := by
  induction pre with
  | nil => rfl
  | cons a pre ih => simpa using ih

theorem set_take_append_pair (y t z : Nat) (pre : List Nat) :
    ((pre ++ [t, z]).set pre.length y).take (pre.length + 1) = pre ++ [y] := by
  induction pre with
  | nil => rfl
  | cons a pre ih => simpa using ih

theorem rle_splice_snoc (x t z : Nat) (pre : List Nat) :
    rle_splice x (pre ++ [t, z]) = .ok (pre ++ [t + x]) := by
  unfold rle_splice
  have h2 : 2 ≤ (pre ++ [t, z]).length := by simp
  have hl : (pre ++ [t, z]).length - 2 = pre.length := by simp
  have hl1 : (pre ++ [t, z]).length - 1 = pre.length + 1 := by simp
  rw [if_pos h2, hl, hl1, getD_append_pair, set_take_append_pair]

theorem rle_for_no_splice (v : Nat) (js : List Nat) (g : List Nat) :
    rle_for v js ⟨g, false⟩ = .ok ⟨g ++ js.map (rle_lookup_at v), false⟩ := by
  induction js generalizing g with
  | nil => simp [rle_for]
  | cons j js ih => simp [rle_for, rle_inner, ih]

theorem rle_byte_no_splice (v : Nat) (g : List Nat) :
    rle_byte v ⟨g, false⟩ = .ok ⟨g ++ rle_row v, false⟩ := by
  simp [rle_byte, rle_row, rle_for_no_splice]

/-- With a splice pending, the first cell of the row is added to the entry
before the marker and the marker is overwritten by the rest of the row. -/
theorem rle_byte_splice (v t : Nat) (hv : v < 256) (pre : List Nat)
    (h1 : 1 ≤ rle_lookup_at v 0) :
    rle_byte v ⟨pre ++ [t, 0], true⟩ =
      .ok ⟨pre ++ (t + rle_lookup_at v 0) :: (rle_row v).tail, false⟩ := by
  have hs := rle_lookup_size_pos v hv
  obtain ⟨n, hn⟩ : ∃ n, rle_lookup_size v = n + 1 := ⟨rle_lookup_size v - 1, by omega⟩
  have hsplice : rle_inner v ⟨pre ++ [t, 0], true⟩ 0 =
      .ok ⟨pre ++ [t + rle_lookup_at v 0], false⟩ := by
    unfold rle_inner
    by_cases hgt : rle_lookup_at v 0 > 1
    · simp [hgt, rle_splice_snoc]
    · have h : rle_lookup_at v 0 = 1 := by omega
      simp [h, rle_splice_snoc]
  simp only [rle_byte, rle_row, hn, List.range_succ_eq_map, rle_for, hsplice, rle_for_no_splice,
    List.map_cons, List.tail_cons]
  simp

/-! ## Gaps of bit strings -/

theorem gaps_from_append (c : Nat) (xs ys : List Bool) :
    gaps_from c (xs ++ ys) = gaps_from c xs ++ gaps_from (pending_from c xs) ys := by
  induction xs generalizing c with
  | nil => rfl
  | cons b xs ih => cases b <;> simp [gaps_from, pending_from, ih]

theorem pending_from_append (c : Nat) (xs ys : List Bool) :
    pending_from c (xs ++ ys) = pending_from (pending_from c xs) ys := by
  induction xs generalizing c with
  | nil => rfl
  | cons b xs ih => cases b <;> simp [pending_from, ih]

/-- Zero bits scanned before a bit string are added to its first gap. -/
theorem gaps_from_shift (c : Nat) (bs : List Bool) :
    gaps_from c bs =
      match gaps_from 0 bs with
      | [] => []
      | f :: t => (c + f) :: t := by
  induction bs generalizing c with
  | nil => rfl
  | cons b bs ih =>
    cases b
    · rw [gaps_from, gaps_from, ih (c + 1), ih (0 + 1)]
      cases gaps_from 0 bs <;> simp; omega
    · simp [gaps_from]

theorem pending_from_shift (c : Nat) (bs : List Bool) :
    pending_from c bs =
      if gaps_from 0 bs = [] then c + pending_from 0 bs else pending_from 0 bs := by
  induction bs generalizing c with
  | nil => simp [pending_from, gaps_from]
  | cons b bs ih =>
    cases b
    · rw [pending_from, pending_from, gaps_from, ih (c + 1), ih (0 + 1)]
      rw [gaps_from_shift (0 + 1) bs]
      cases gaps_from 0 bs <;> simp; omega
    · simp [gaps_from, pending_from]

theorem gaps_from_pos (c : Nat) (bs : List Bool) : ∀ x ∈ gaps_from c bs, 1 ≤ x := by
  induction bs generalizing c with
  | nil => simp [gaps_from]
  | cons b bs ih =>
    cases b
    · simpa [gaps_from] using ih (c + 1)
    · intro x hx
      simp only [gaps_from, List.mem_cons] at hx
      rcases hx with h | h
      · omega
      · exact ih 0 x h

/-- Every bit is counted once: in a gap or in the pending run. -/
theorem gaps_from_sum (c : Nat) (bs : List Bool) :
    (gaps_from c bs).sum + pending_from c bs = c + bs.length := by
  induction bs generalizing c with
  | nil => simp [gaps_from, pending_from]
  | cons b bs ih =>
    cases b
    · have := ih (c + 1)
      simp only [gaps_from, pending_from, List.length_cons] at *
      omega
    · have := ih 0
      simp only [gaps_from, pending_from, List.length_cons, List.sum_cons] at *
      omega

/-! ## The encoder follows the bit string -/

set_option maxRecDepth 100000 in
theorem rle_lookup_first_pos : ∀ v, v < 256 → 1 ≤ rle_lookup_at v 0 := by decide

theorem rle_row_cons (v : Nat) (hv : v < 256) :
    rle_row v = rle_lookup_at v 0 :: (rle_row v).tail := by
  have hs := rle_lookup_size_pos v hv
  obtain ⟨n, hn⟩ : ∃ n, rle_lookup_size v = n + 1 := ⟨rle_lookup_size v - 1, by omega⟩
  simp [rle_row, hn, List.range_succ_eq_map]

/-- One byte takes the encoder from the state that describes the bits scanned
so far to the lists that describe the bits with this byte added. -/
theorem rle_byte_state (v : Nat) (hv : v < 256) (g : List Nat) (c : Nat) :
    rle_byte v (rle_state_of g c) =
      .ok ⟨g ++ gaps_from c (byte_bits v) ++ splice_marker (pending_from c (byte_bits v)),
        false⟩ := by
  have hrow := rle_row_spec v hv
  by_cases hc : c = 0
  · subst hc
    simp [rle_state_of, rle_byte_no_splice, hrow, List.append_assoc]
  · have hcons := rle_row_cons v hv
    have hst : rle_state_of g c = ⟨g ++ [c, 0], true⟩ := by simp [rle_state_of, hc]
    rw [hst, rle_byte_splice v c hv g (rle_lookup_first_pos v hv)]
    rw [gaps_from_shift c, pending_from_shift c]
    generalize rle_lookup_at v 0 = f at hcons ⊢
    generalize (rle_row v).tail = tl at hcons ⊢
    rw [hrow] at hcons
    generalize pending_from 0 (byte_bits v) = p0 at hcons ⊢
    cases hG : gaps_from 0 (byte_bits v) with
    | nil =>
      rw [hG] at hcons
      by_cases hp : p0 = 0
      · simp [splice_marker, hp] at hcons
      · simp only [splice_marker, hp, if_false, List.nil_append, List.cons.injEq] at hcons
        obtain ⟨h1, h2⟩ := hcons
        have : c + p0 ≠ 0 := by omega
        simp [splice_marker, this, ← h1, ← h2]
    | cons f1 t1 =>
      rw [hG] at hcons
      simp only [List.cons_append, List.cons.injEq] at hcons
      obtain ⟨h1, h2⟩ := hcons
      simp [← h1, ← h2]

theorem rle_mark_state (g : List Nat) (p : Nat) (hne : p = 0 → g ≠ [])
    (hpos : ∀ x ∈ g, 1 ≤ x) :
    rle_mark ⟨g ++ splice_marker p, false⟩ = .ok (rle_state_of g p) := by
  by_cases hp : p = 0
  · subst hp
    have hg := hne rfl
    obtain ⟨x, hx⟩ : ∃ x, g.getLast? = some x := by
      cases h : g.getLast? with
      | none => exact absurd (List.getLast?_eq_none_iff.mp h) hg
      | some x => exact ⟨x, rfl⟩
    have hx1 : 1 ≤ x := hpos x (List.mem_of_getLast?_eq_some hx)
    have hx0 : x ≠ 0 := by omega
    simp [rle_mark, splice_marker, rle_state_of, hx, hx0]
  · have : (g ++ [p, 0]).getLast? = some 0 := by
      simp [List.getLast?_append]
    simp [rle_mark, splice_marker, rle_state_of, hp, this]

theorem gaps_from_ne_nil (c : Nat) (bs : List Bool) (hb : bs ≠ [])
    (hp : pending_from c bs = 0) : gaps_from c bs ≠ [] := by
  intro h
  have hs := gaps_from_sum c bs
  have hl : 0 < bs.length := List.length_pos.mpr hb
  rw [h, hp] at hs
  simp at hs
  omega

theorem rle_bytes_state (B : List Nat) (hB : ∀ x ∈ B, x < 256) (g : List Nat) (c : Nat)
    (hg : ∀ x ∈ g, 1 ≤ x) :
    rle_bytes B (rle_state_of g c) =
      .ok (rle_state_of (g ++ gaps_from c (buffer_bits B)) (pending_from c (buffer_bits B))) := by
  induction B generalizing g c with
  | nil => simp [rle_bytes, buffer_bits, gaps_from, pending_from]
  | cons v vs ih =>
    have hv : v < 256 := hB v (List.mem_cons_self _ _)
    have hvs : ∀ x ∈ vs, x < 256 := fun x hx => hB x (List.mem_cons_of_mem _ hx)
    have hbits : byte_bits v ≠ [] := by
      intro h
      have := byte_bits_length v
      rw [h] at this
      simp at this
    have hpos : ∀ x ∈ g ++ gaps_from c (byte_bits v), 1 ≤ x := by
      intro x hx
      rcases List.mem_append.mp hx with h | h
      · exact hg x h
      · exact gaps_from_pos c _ x h
    have hne : pending_from c (byte_bits v) = 0 → g ++ gaps_from c (byte_bits v) ≠ [] := by
      intro hp h
      exact gaps_from_ne_nil c _ hbits hp (List.append_eq_nil.mp h).2
    simp only [rle_bytes, rle_byte_state v hv, rle_mark_state _ _ hne hpos]
    rw [ih hvs _ _ hpos]
    simp [buffer_bits, gaps_from_append, pending_from_append, List.append_assoc]

theorem pending_from_append_true (c : Nat) (bs : List Bool) (n : Nat) :
    pending_from c (bs ++ List.replicate (n + 1) true) = 0 := by
  rw [pending_from_append]
  generalize pending_from c bs = p
  induction n generalizing p with
  | zero => simp [pending_from]
  | succ n ih => rw [List.replicate_succ, pending_from]; exact ih 0

/-- The encoder returns the gaps of the input bit string followed by eight set
bits. -/
theorem get_run_length_encoding_eq (B : List Nat) (hB : ∀ x ∈ B, x < 256) :
    get_run_length_encoding B =
      .ok (gaps_from 0 (buffer_bits B ++ List.replicate 8 true)) := by
  have h0 : (⟨[], false⟩ : RleState) = rle_state_of [] 0 := by simp [rle_state_of]
  have hs := rle_bytes_state B hB [] 0 (by simp)
  have hp := pending_from_append_true 0 (buffer_bits B) 7
  rw [pending_from_append, ← byte_bits_allones] at hp
  simp only [get_run_length_encoding, h0, hs, rle_byte_state 255 (by decide), hp]
  simp [splice_marker, gaps_from_append, byte_bits_allones]

theorem prefix_sums_gaps_from (acc c : Nat) (bs : List Bool) :
    prefix_sums acc (gaps_from c bs) = set_bit_positions (acc + c) bs := by
  induction bs generalizing acc c with
  | nil => rfl
  | cons b bs ih =>
    cases b
    · rw [gaps_from, set_bit_positions, ih acc (c + 1), Nat.add_assoc]
    · rw [gaps_from, set_bit_positions, prefix_sums, ih (acc + (c + 1)) 0]
      simp [Nat.add_assoc]

theorem mem_set_bit_positions (p j : Nat) (bs : List Bool) :
    j ∈ set_bit_positions p bs ↔ p < j ∧ bs.getD (j - p - 1) false = true := by
  induction bs generalizing p with
  | nil => simp [set_bit_positions]
  | cons b bs ih =>
    cases b
    · rw [set_bit_positions, ih (p + 1)]
      constructor
      · rintro ⟨h1, h2⟩
        refine ⟨by omega, ?_⟩
        obtain ⟨m, hm⟩ : ∃ m, j - p - 1 = m + 1 := ⟨j - p - 2, by omega⟩
        rw [hm, List.getD_cons_succ]
        rwa [show j - (p + 1) - 1 = m by omega] at h2
      · rintro ⟨h1, h2⟩
        by_cases hj : j = p + 1
        · subst hj
          simp at h2
        · obtain ⟨m, hm⟩ : ∃ m, j - p - 1 = m + 1 := ⟨j - p - 2, by omega⟩
          rw [hm, List.getD_cons_succ] at h2
          refine ⟨by omega, ?_⟩
          rwa [show j - (p + 1) - 1 = m by omega]
    · rw [set_bit_positions, List.mem_cons, ih (p + 1)]
      constructor
      · rintro (h | ⟨h1, h2⟩)
        · subst h
          simp
        · refine ⟨by omega, ?_⟩
          obtain ⟨m, hm⟩ : ∃ m, j - p - 1 = m + 1 := ⟨j - p - 2, by omega⟩
          rw [hm, List.getD_cons_succ]
          rwa [show j - (p + 1) - 1 = m by omega] at h2
      · rintro ⟨h1, h2⟩
        by_cases hj : j = p + 1
        · exact Or.inl hj
        · right
          obtain ⟨m, hm⟩ : ∃ m, j - p - 1 = m + 1 := ⟨j - p - 2, by omega⟩
          rw [hm, List.getD_cons_succ] at h2
          refine ⟨by omega, ?_⟩
          rwa [show j - (p + 1) - 1 = m by omega]

theorem buffer_bits_length (B : List Nat) : (buffer_bits B).length = 8 * B.length := by
  induction B with
  | nil => rfl
  | cons v vs ih => simp [buffer_bits, byte_bits_length, ih]; omega

theorem byte_bits_getD (v i : Nat) (hi : i < 8) :
    (byte_bits v).getD i false = v.testBit (7 - i) := by
  have h : i = 0 ∨ i = 1 ∨ i = 2 ∨ i = 3 ∨ i = 4 ∨ i = 5 ∨ i = 6 ∨ i = 7 := by omega
  rcases h with h | h | h | h | h | h | h | h <;> subst h <;> rfl

/-- Bit `i` of byte `a` of a buffer is bit `8 * a + i` of its bit string. -/
theorem buffer_bits_getD (B : List Nat) (rest : List Bool) (a i : Nat) (ha : a < B.length)
    (hi : i < 8) :
    (buffer_bits B ++ rest).getD (8 * a + i) false = (B.getD a 0).testBit (7 - i) := by
  induction B generalizing a with
  | nil => simp at ha
  | cons v vs ih =>
    rw [buffer_bits, List.append_assoc]
    cases a with
    | zero =>
      have hl : 8 * 0 + i < (byte_bits v).length := by rw [byte_bits_length]; omega
      rw [List.getD_append _ _ _ _ hl]
      simpa using byte_bits_getD v i hi
    | succ a =>
      have hl : (byte_bits v).length ≤ 8 * (a + 1) + i := by rw [byte_bits_length]; omega
      rw [List.getD_append_right _ _ _ _ hl, byte_bits_length,
        show 8 * (a + 1) + i - 8 = 8 * a + i by omega]
      simpa using ih a (by simpa using ha)

/-! ## The decoder sets the bits at the running sums -/

theorem rld_while_eq (fuel ci bc : Nat) (h : ci ≤ fuel) :
    rld_while fuel ci bc = (ci - 8 * ((ci - 1) / 8), bc + (ci - 1) / 8) := by
  induction fuel generalizing ci bc with
  | zero =>
    have : ci = 0 := by omega
    subst this
    simp [rld_while]
  | succ fuel ih =>
    unfold rld_while
    by_cases h8 : ci > 8
    · rw [if_pos h8, ih (ci - 8) (bc + 1) (by omega)]
      ext <;> simp <;> omega
    · rw [if_neg h8]
      ext <;> simp <;> omega

theorem rld_step_at (s : RldState) (P x : Nat) (h : rld_at s P) :
    rld_at (rld_step s x) (P + x) := by
  obtain ⟨h1, h2⟩ := h
  simp only [rld_at, rld_step, rld_while_eq _ _ _ (le_refl _)]
  constructor <;> omega

theorem rld_step_buf (s : RldState) (P x : Nat) (h : rld_at s P) :
    (rld_step s x).buf =
      write_byte s.buf ((P + x - 1) / 8)
        (s.buf ((P + x - 1) / 8) ||| (1 <<< (8 - (P + x - 8 * ((P + x - 1) / 8))))) := by
  obtain ⟨h1, h2⟩ := h
  simp only [rld_step, rld_while_eq _ _ _ (le_refl _)]
  have e1 : s.bytecounter + (s.currindex + x - 1) / 8 - 1 = (P + x - 1) / 8 := by omega
  have e2 : s.currindex + x - 8 * ((s.currindex + x - 1) / 8) = P + x - 8 * ((P + x - 1) / 8) := by
    omega
  rw [e1, e2]

theorem testBit_or_shift (y m k : Nat) (hk : k < 8) :
    ((y ||| (1 <<< m)) % 256).testBit k = (y.testBit k || decide (m = k)) := by
  rw [show (256 : Nat) = 2 ^ 8 by norm_num, Nat.testBit_mod_two_pow, Nat.testBit_or,
    Nat.one_shiftLeft, Nat.testBit_two_pow]
  simp [hk]

/-- Bit `k` of byte `a` is bit position `8 * a + 8 - k` of the buffer, counted
from 1; one step of the decoder sets the bit at the new running sum. -/
theorem rld_step_testBit (s : RldState) (P x a k : Nat) (h : rld_at s P) (hk : k < 8) :
    ((rld_step s x).buf a).testBit k =
      ((s.buf a).testBit k || decide (8 * a + 8 - k = P + x)) := by
  rw [rld_step_buf s P x h]
  unfold write_byte
  by_cases ha : a = (P + x - 1) / 8
  · rw [if_pos ha, testBit_or_shift _ _ _ hk, ← ha]
    congr 1
    have : (8 - (P + x - 8 * a) = k) ↔ (8 * a + 8 - k = P + x) := by omega
    simp [this]
  · rw [if_neg ha]
    have : ¬ (8 * a + 8 - k = P + x) := by omega
    simp [this]

theorem rld_step_lt (s : RldState) (x : Nat) (h : ∀ a, s.buf a < 256) :
    ∀ a, (rld_step s x).buf a < 256 := by
  intro a
  simp only [rld_step, write_byte]
  split
  · exact Nat.mod_lt _ (by norm_num)
  · exact h a

theorem rld_foldl_at (g : List Nat) (s : RldState) (P : Nat) (h : rld_at s P) :
    rld_at (g.foldl rld_step s) (P + g.sum) := by
  induction g generalizing s P with
  | nil => simpa using h
  | cons x xs ih =>
    have := ih (rld_step s x) (P + x) (rld_step_at s P x h)
    simpa [List.foldl, Nat.add_assoc] using this

theorem rld_foldl_lt (g : List Nat) (s : RldState) (h : ∀ a, s.buf a < 256) :
    ∀ a, (g.foldl rld_step s).buf a < 256 := by
  induction g generalizing s with
  | nil => simpa using h
  | cons x xs ih => exact ih _ (rld_step_lt s x h)

theorem rld_foldl_testBit (g : List Nat) (s : RldState) (P a k : Nat) (h : rld_at s P)
    (hk : k < 8) :
    ((g.foldl rld_step s).buf a).testBit k =
      ((s.buf a).testBit k || decide (8 * a + 8 - k ∈ prefix_sums P g)) := by
  induction g generalizing s P with
  | nil => simp [prefix_sums]
  | cons x xs ih =>
    rw [List.foldl, ih (rld_step s x) (P + x) (rld_step_at s P x h),
      rld_step_testBit s P x a k h hk]
    simp [prefix_sums, Bool.or_assoc]

theorem rld_start (stale : Nat → Nat) : rld_at ⟨memset_scratch stale, 0, 1⟩ 0 := by
  simp [rld_at]

theorem memset_scratch_lt (stale : Nat → Nat) (a : Nat) : memset_scratch stale a < 256 := by
  unfold memset_scratch
  split
  · norm_num
  · exact Nat.mod_lt _ (by norm_num)

theorem memset_scratch_zero (stale : Nat → Nat) (a : Nat) (h : a < 4 * MAX_INPUT_SIZE) :
    memset_scratch stale a = 0 := by
  simp [memset_scratch, h]

/-- The decoder applied to the gaps of a bit string that ends in eight set
bits returns the bytes in front of them. -/
theorem rld_gaps_of_buffer (stale : Nat → Nat) (B : List Nat) (hB : ∀ x ∈ B, x < 256)
    (hlen : B.length ≤ MAX_INPUT_SIZE) :
    get_run_length_decoding stale (gaps_from 0 (buffer_bits B ++ List.replicate 8 true)) =
      (B, B.length) := by
  set bits := buffer_bits B ++ List.replicate 8 true with hbits
  set g := gaps_from 0 bits with hg
  have hsum : g.sum = 8 * B.length + 8 := by
    have h : g.sum + pending_from 0 bits = 0 + bits.length := gaps_from_sum 0 bits
    rw [show pending_from 0 bits = 0 from pending_from_append_true 0 (buffer_bits B) 7] at h
    have hl : bits.length = 8 * B.length + 8 := by
      simp [hbits, buffer_bits_length]
    omega
  have hat := rld_foldl_at g _ 0 (rld_start stale)
  have hbc : (rld_loop stale g).bytecounter - 1 = B.length := by
    have h2 := hat.2
    rw [hsum] at h2
    unfold rld_loop
    omega
  have hbyte : ∀ a, a < B.length → (rld_loop stale g).buf a = B.getD a 0 := by
    intro a ha
    have hlt : (rld_loop stale g).buf a < 256 :=
      rld_foldl_lt g _ (memset_scratch_lt stale) a
    have hBa : B.getD a 0 < 256 := by
      rw [List.getD_eq_getElem _ _ ha]
      exact hB _ (List.getElem_mem _)
    apply Nat.eq_of_testBit_eq
    intro k
    by_cases hk : k < 8
    · unfold rld_loop
      rw [rld_foldl_testBit g _ 0 a k (rld_start stale) hk]
      have hz : memset_scratch stale a = 0 :=
        memset_scratch_zero stale a (by unfold MAX_INPUT_SIZE at *; omega)
      simp only [hz, Nat.zero_testBit, Bool.false_or]
      rw [hg, prefix_sums_gaps_from]
      have hmem := mem_set_bit_positions (0 + 0) (8 * a + 8 - k) bits
      have hidx : 8 * a + 8 - k - (0 + 0) - 1 = 8 * a + (7 - k) := by omega
      rw [hidx, hbits, buffer_bits_getD B _ a (7 - k) ha (by omega),
        show 7 - (7 - k) = k by omega] at hmem
      have hpos : 0 + 0 < 8 * a + 8 - k := by omega
      by_cases hb : (B.getD a 0).testBit k = true
      · rw [hb, decide_eq_true_eq]
        exact hmem.mpr ⟨hpos, hb⟩
      · have hnb : (B.getD a 0).testBit k = false := by simpa using hb
        rw [hnb, decide_eq_false_iff_not]
        intro h
        exact hb (hmem.mp h).2
    · have h256 : (256 : Nat) ≤ 2 ^ k := by
        calc (256 : Nat) = 2 ^ 8 := by norm_num
          _ ≤ 2 ^ k := Nat.pow_le_pow_right (by norm_num) (by omega)
      rw [Nat.testBit_lt_two_pow (by omega), Nat.testBit_lt_two_pow (by omega)]
  unfold get_run_length_decoding
  simp only [hbc]
  congr 1
  apply List.ext_getElem
  · simp
  · intro i h1 h2
    simp only [List.getElem_map, List.getElem_range]
    rw [hbyte i h2, List.getD_eq_getElem _ _ h2]

/-- C4: for a buffer of at most `MAX_INPUT_SIZE` bytes, the gaps returned by
`get_run_length_encoding` are the distances between successive set bits of the
input bit string followed by eight set bits: their running sums are the
positions of the set bits, counted from 1. -/
theorem run_length_encoding_gaps (B : List Nat) (hB : ∀ x ∈ B, x < 256)
    (_hn : B.length ≤ MAX_INPUT_SIZE) :
    ∃ g, get_run_length_encoding B = .ok g ∧
      prefix_sums 0 g = set_bit_positions 0 (buffer_bits B ++ List.replicate 8 true) :=
  ⟨_, get_run_length_encoding_eq B hB, by rw [prefix_sums_gaps_from]⟩

/-- C1: decoding the gaps that `get_run_length_encoding` returns for a buffer of
1 to `MAX_INPUT_SIZE` bytes gives back the same bytes and the same length. -/
theorem run_length_round_trip (stale : Nat → Nat) (B : List Nat) (hB : ∀ x ∈ B, x < 256)
    (_h1 : 1 ≤ B.length) (h2 : B.length ≤ MAX_INPUT_SIZE) :
    ∃ g, get_run_length_encoding B = .ok g ∧
      get_run_length_decoding stale g = (B, B.length) :=
  ⟨_, get_run_length_encoding_eq B hB, rld_gaps_of_buffer stale B hB h2⟩

/-! ## Bytes behind the cleared part of a scratch buffer do not reach the front -/

theorem memset_scratch_agree (stale1 stale2 : Nat → Nat) (a : Nat)
    (h : a < 4 * MAX_INPUT_SIZE) : memset_scratch stale1 a = memset_scratch stale2 a := by
  simp [memset_scratch, h]

theorem rld_step_agree (N : Nat) (s t : RldState) (x : Nat) (h : rld_agree N s t) :
    rld_agree N (rld_step s x) (rld_step t x) := by
  obtain ⟨h1, h2, h3⟩ := h
  refine ⟨by simp [rld_step, h1, h2], by simp [rld_step, h1, h2], ?_⟩
  intro a ha
  simp only [rld_step, write_byte, h1, h2]
  split
  · next heq => rw [← heq, h3 a ha]
  · exact h3 a ha

theorem rld_foldl_agree (N : Nat) (g : List Nat) (s t : RldState) (h : rld_agree N s t) :
    rld_agree N (g.foldl rld_step s) (g.foldl rld_step t) := by
  induction g generalizing s t with
  | nil => simpa using h
  | cons x xs ih => exact ih _ _ (rld_step_agree N s t x h)

/-- The result of `get_run_length_decoding` does not depend on the old content
of `rle_buf` when it fits into the cleared part. -/
theorem get_run_length_decoding_stale (stale1 stale2 : Nat → Nat) (g : List Nat)
    (h : (get_run_length_decoding stale2 g).2 ≤ 4 * MAX_INPUT_SIZE) :
    get_run_length_decoding stale1 g = get_run_length_decoding stale2 g := by
  have hag : rld_agree (4 * MAX_INPUT_SIZE) (rld_loop stale1 g) (rld_loop stale2 g) :=
    rld_foldl_agree _ g _ _ ⟨rfl, rfl, fun a ha => memset_scratch_agree stale1 stale2 a ha⟩
  obtain ⟨_, h2, h3⟩ := hag
  simp only [get_run_length_decoding] at h ⊢
  rw [h2]
  congr 1
  apply List.map_congr_left
  intro a ha
  exact h3 a (by have := List.mem_range.mp ha; omega)

theorem put_carry_agree (N : Nat) (s t : PutState) (h : put_agree N s t) :
    put_agree N (put_carry s) (put_carry t) := by
  obtain ⟨h1, h2, h3⟩ := h
  unfold put_carry
  rw [h2]
  split
  · exact ⟨by simp [h1], rfl, h3⟩
  · exact ⟨h1, h2, h3⟩

theorem put_set_agree (N : Nat) (s t : PutState) (h : put_agree N s t) :
    put_agree N (put_set s) (put_set t) := by
  obtain ⟨h1, h2, h3⟩ := h
  refine ⟨h1, h2, ?_⟩
  intro a ha
  simp only [put_set, write_byte, h1, h2]
  split
  · next heq => rw [← heq, h3 a ha]
  · exact h3 a ha

theorem put_next_agree (N : Nat) (s t : PutState) (h : put_agree N s t) :
    put_agree N (put_next s) (put_next t) := by
  obtain ⟨h1, h2, h3⟩ := h
  exact put_carry_agree N _ _ ⟨h1, by simp [h2], h3⟩

theorem put_unary_agree (N q : Nat) (s t : PutState) (h : put_agree N s t) :
    put_agree N (put_unary q s) (put_unary q t) := by
  induction q generalizing s t with
  | zero => exact h
  | succ q ih => exact ih _ _ (put_next_agree N _ _ (put_set_agree N _ _ h))

theorem PUT_ONE_INTEGER_agree (N : Nat) (x : Int) (n : Nat) (s t : PutState)
    (h : put_agree N s t) :
    put_agree N (PUT_ONE_INTEGER x n s) (PUT_ONE_INTEGER x n t) := by
  induction n generalizing s t with
  | zero => exact h
  | succ n ih =>
    unfold PUT_ONE_INTEGER
    apply ih
    apply put_next_agree
    split
    · exact put_set_agree N _ _ h
    · exact h

theorem golomb_encode_symbol_agree (N b k v : Nat) (s t s1 : PutState) (h : put_agree N s t)
    (hs : golomb_encode_symbol b k s v = .ok s1) :
    ∃ t1, golomb_encode_symbol b k t v = .ok t1 ∧ put_agree N s1 t1 := by
  unfold golomb_encode_symbol at hs ⊢
  by_cases hb : b = 0
  · simp [hb] at hs
  · simp only [hb, if_false] at hs ⊢
    have h1 := put_next_agree N _ _ (put_unary_agree N ((v - 1) / b) s t h)
    split at hs
    · next hr =>
      rw [if_pos hr]
      injection hs with hs
      exact ⟨_, rfl, hs ▸ PUT_ONE_INTEGER_agree N _ _ _ _ h1⟩
    · next hr =>
      rw [if_neg hr]
      injection hs with hs
      exact ⟨_, rfl, hs ▸ PUT_ONE_INTEGER_agree N _ _ _ _ h1⟩

theorem golomb_encode_loop_agree (N b k : Nat) (g : List Nat) (s t s1 : PutState)
    (h : put_agree N s t) (hs : golomb_encode_loop b k g s = .ok s1) :
    ∃ t1, golomb_encode_loop b k g t = .ok t1 ∧ put_agree N s1 t1 := by
  induction g generalizing s t with
  | nil =>
    simp only [golomb_encode_loop] at hs ⊢
    injection hs with hs
    exact ⟨t, rfl, hs ▸ h⟩
  | cons v vs ih =>
    simp only [golomb_encode_loop] at hs ⊢
    cases hsym : golomb_encode_symbol b k s v with
    | error e => simp [hsym] at hs
    | ok s2 =>
      rw [hsym] at hs
      obtain ⟨t2, ht2, hag⟩ := golomb_encode_symbol_agree N b k v s t s2 h hsym
      rw [ht2]
      exact ih s2 t2 hag hs

/-- The result of `golomb_encode` does not depend on the old content of
`golomb_buf` when it fits into the cleared part. -/
theorem golomb_encode_stale (stale1 stale2 : Nat → Nat) (b : Nat) (B P : List Nat)
    (h : golomb_encode stale2 b B = .ok P) (hP : P.length ≤ 4 * MAX_INPUT_SIZE) :
    golomb_encode stale1 b B = .ok P := by
  unfold golomb_encode at h ⊢
  cases hr : get_run_length_encoding B with
  | error e => simp [hr] at h
  | ok rle =>
    simp only [hr] at h ⊢
    cases hl : golomb_encode_loop b (to_unsigned (ceil_log2 b)) rle ⟨memset_scratch stale2, 0, 0⟩ with
    | error e => simp [hl] at h
    | ok s2 =>
      simp only [hl] at h
      injection h with h
      have hag0 : put_agree (4 * MAX_INPUT_SIZE) ⟨memset_scratch stale2, 0, 0⟩
          ⟨memset_scratch stale1, 0, 0⟩ :=
        ⟨rfl, rfl, fun a ha => memset_scratch_agree stale2 stale1 a ha⟩
      obtain ⟨s1, hs1, h1, _, h3⟩ := golomb_encode_loop_agree _ b _ rle _ _ s2 hag0 hl
      simp only [hs1]
      rw [← h, ← h1]
      congr 1
      apply List.map_congr_left
      intro a ha
      have hlen : s2.bytecounter ≤ 4 * MAX_INPUT_SIZE := by
        rw [← h] at hP
        simpa using hP
      exact (h3 a (by have := List.mem_range.mp ha; omega)).symm

/-! ## The write cursor counts the bits -/

theorem put_next_pos (s : PutState) (h : s.currindex < 8) :
    put_pos (put_next s) = put_pos s + 1 ∧ (put_next s).currindex < 8 := by
  unfold put_next put_carry put_pos
  by_cases h8 : s.currindex + 1 ≥ 8
  · simp only [h8, if_true]
    constructor <;> omega
  · simp only [h8, if_false]
    constructor <;> omega

theorem put_unary_pos (q : Nat) (s : PutState) (h : s.currindex < 8) :
    put_pos (put_unary q s) = put_pos s + q ∧ (put_unary q s).currindex < 8 := by
  induction q generalizing s with
  | zero => exact ⟨rfl, h⟩
  | succ q ih =>
    have h1 := put_next_pos (put_set s) h
    have h2 := ih (put_next (put_set s)) h1.2
    unfold put_unary
    refine ⟨?_, h2.2⟩
    rw [h2.1, h1.1]
    simp only [put_pos, put_set]
    omega

theorem PUT_ONE_INTEGER_pos (x : Int) (n : Nat) (s : PutState) (h : s.currindex < 8) :
    put_pos (PUT_ONE_INTEGER x n s) = put_pos s + n ∧ (PUT_ONE_INTEGER x n s).currindex < 8 := by
  induction n generalizing s with
  | zero => exact ⟨rfl, h⟩
  | succ n ih =>
    unfold PUT_ONE_INTEGER
    by_cases hx : (x >>> n) % 2 = 1
    · rw [if_pos hx]
      have h1 := put_next_pos (put_set s) h
      have h2 := ih _ h1.2
      refine ⟨?_, h2.2⟩
      rw [h2.1, h1.1]
      simp only [put_pos, put_set]
      omega
    · rw [if_neg hx]
      have h1 := put_next_pos s h
      have h2 := ih _ h1.2
      refine ⟨?_, h2.2⟩
      rw [h2.1, h1.1]
      omega

/-- For `b ≥ 1` an iteration of the main loop writes the code word of the gap
and moves the cursor by its length. -/
theorem golomb_encode_symbol_pos (b k v : Nat) (s : PutState) (hb : 1 ≤ b)
    (h : s.currindex < 8) :
    ∃ s1, golomb_encode_symbol b k s v = .ok s1 ∧
      put_pos s1 = put_pos s + codeword_length b k v ∧ s1.currindex < 8 := by
  have hb0 : b ≠ 0 := by omega
  have h1 := put_unary_pos ((v - 1) / b) s h
  have h2 := put_next_pos _ h1.2
  unfold golomb_encode_symbol codeword_length
  simp only [hb0, if_false]
  split
  · refine ⟨_, rfl, ?_, (PUT_ONE_INTEGER_pos _ _ _ h2.2).2⟩
    rw [(PUT_ONE_INTEGER_pos _ _ _ h2.2).1, h2.1, h1.1]
    omega
  · refine ⟨_, rfl, ?_, (PUT_ONE_INTEGER_pos _ _ _ h2.2).2⟩
    rw [(PUT_ONE_INTEGER_pos _ _ _ h2.2).1, h2.1, h1.1]
    omega

theorem golomb_encode_loop_pos (b k : Nat) (g : List Nat) (s : PutState) (hb : 1 ≤ b)
    (h : s.currindex < 8) :
    ∃ s1, golomb_encode_loop b k g s = .ok s1 ∧
      put_pos s1 = put_pos s + (g.map (codeword_length b k)).sum ∧ s1.currindex < 8 := by
  induction g generalizing s with
  | nil => exact ⟨s, rfl, by simp, h⟩
  | cons v vs ih =>
    obtain ⟨s1, hs1, hp1, hc1⟩ := golomb_encode_symbol_pos b k v s hb h
    obtain ⟨s2, hs2, hp2, hc2⟩ := ih s1 hc1
    refine ⟨s2, by simp only [golomb_encode_loop, hs1, hs2], ?_, hc2⟩
    rw [hp2, hp1]
    simp only [List.map_cons, List.sum_cons]
    omega

/-- The result of `golomb_decode` does not depend on the old content of
`rle_buf` when it fits into the cleared part. -/
theorem golomb_decode_stale (stale1 stale2 : Nat → Nat) (mem : List Nat) (size b : Nat)
    (out : List Nat × Nat) (h : golomb_decode stale2 mem size b = .ok out)
    (hn : out.2 ≤ 4 * MAX_INPUT_SIZE) : golomb_decode stale1 mem size b = .ok out := by
  unfold golomb_decode at h ⊢
  cases hg : golomb_decode_gaps mem size b with
  | error e => simp [hg] at h
  | ok gd =>
    simp only [hg] at h ⊢
    injection h with h
    rw [get_run_length_decoding_stale stale1 stale2 gd (by rw [h]; exact hn), h]

/-- With `b = 0` the first iteration of the main loop of `golomb_encode`
divides by zero; there always is a first iteration. -/
theorem golomb_encode_zero_param (stale : Nat → Nat) (B : List Nat) (hB : ∀ x ∈ B, x < 256) :
    golomb_encode stale 0 B = .error .division_by_zero := by
  have hg := get_run_length_encoding_eq B hB
  have hne : gaps_from 0 (buffer_bits B ++ List.replicate 8 true) ≠ [] :=
    gaps_from_ne_nil 0 _ (by simp) (pending_from_append_true 0 (buffer_bits B) 7)
  unfold golomb_encode
  rw [hg]
  cases hgl : gaps_from 0 (buffer_bits B ++ List.replicate 8 true) with
  | nil => exact absurd hgl hne
  | cons v vs => simp [golomb_encode_loop, golomb_encode_symbol]

/-! ## The encoder writes the code words -/

theorem int_bits_length (x : Int) (n : Nat) : (int_bits x n).length = n := by
  induction n with
  | zero => rfl
  | succ n ih => simp [int_bits, ih]

theorem codeword_bits_length (b k v : Nat) :
    (codeword_bits b k v).length = codeword_length b k v := by
  unfold codeword_bits codeword_length
  simp only [List.length_append, List.length_replicate, List.length_cons]
  split <;> simp [int_bits_length] <;> omega

theorem emits_nil (s : PutState) (h : s.currindex < 8) : emits s s [] := by
  refine ⟨rfl, h, ?_⟩
  intro p
  simp

theorem emits_append (s s1 s2 : PutState) (L1 L2 : List Bool) (h1 : emits s s1 L1)
    (h2 : emits s1 s2 L2) : emits s s2 (L1 ++ L2) := by
  obtain ⟨p1, _, b1⟩ := h1
  obtain ⟨p2, c2, b2⟩ := h2
  refine ⟨by rw [p2, p1, List.length_append]; omega, c2, ?_⟩
  intro p
  rw [b2 p, b1 p, p1, Bool.or_assoc]
  congr 1
  by_cases hlt : p < put_pos s + L1.length
  · have hn : ¬ (put_pos s + L1.length ≤ p) := by omega
    by_cases hp : put_pos s ≤ p
    · rw [List.getD_append _ _ _ _ (by omega : p - put_pos s < L1.length)]
      simp [hn, hp]
    · simp [hn, hp]
  · have hge : put_pos s + L1.length ≤ p := by omega
    have hp : put_pos s ≤ p := by omega
    rw [List.getD_append_right _ _ _ _ (by omega : L1.length ≤ p - put_pos s)]
    have e : p - put_pos s - L1.length = p - (put_pos s + L1.length) := by omega
    have hout : L1.getD (p - put_pos s) false = false := by
      rw [List.getD_eq_default _ _ (by omega)]
    rw [hout, e]
    simp [hge, hp]

theorem put_set_bit (s : PutState) (h : s.currindex < 8) (p : Nat) :
    bit_at (put_set s).buf p = (bit_at s.buf p || decide (p = put_pos s)) := by
  unfold bit_at put_set write_byte put_pos
  by_cases ha : p / 8 = s.bytecounter
  · simp only [ha, if_true]
    rw [testBit_or_shift _ _ _ (by omega)]
    congr 1
    have : (7 - s.currindex = 7 - p % 8) ↔ (p = 8 * s.bytecounter + s.currindex) := by omega
    simp [this]
  · simp only [ha, if_false]
    have : ¬ (p = 8 * s.bytecounter + s.currindex) := by omega
    simp [this]

theorem put_next_buf (s : PutState) : (put_next s).buf = s.buf := by
  unfold put_next put_carry
  split <;> rfl

/-- Writing a one-bit. -/
theorem emits_one (s : PutState) (h : s.currindex < 8) :
    emits s (put_next (put_set s)) [true] := by
  have hn := put_next_pos (put_set s) h
  refine ⟨by rw [hn.1]; simp [put_pos, put_set], hn.2, ?_⟩
  intro p
  rw [put_next_buf, put_set_bit s h p]
  congr 1
  by_cases hp : p = put_pos s
  · subst hp
    simp
  · by_cases hle : put_pos s ≤ p
    · have : p - put_pos s ≠ 0 := by omega
      obtain ⟨m, hm⟩ : ∃ m, p - put_pos s = m + 1 := ⟨p - put_pos s - 1, by omega⟩
      simp [hp, hm]
    · simp [hp, hle]

/-- Writing a zero-bit: only the cursor moves. -/
theorem emits_zero (s : PutState) (h : s.currindex < 8) : emits s (put_next s) [false] := by
  have hn := put_next_pos s h
  refine ⟨by rw [hn.1]; simp, hn.2, ?_⟩
  intro p
  rw [put_next_buf]
  by_cases hle : put_pos s ≤ p
  · by_cases hp : p - put_pos s = 0
    · simp [hp]
    · obtain ⟨m, hm⟩ : ∃ m, p - put_pos s = m + 1 := ⟨p - put_pos s - 1, by omega⟩
      simp [hm]
  · simp [hle]

theorem emits_unary (q : Nat) (s : PutState) (h : s.currindex < 8) :
    emits s (put_unary q s) (List.replicate q true) := by
  induction q generalizing s with
  | zero => exact emits_nil s h
  | succ q ih =>
    have h1 := emits_one s h
    have h2 := ih (put_next (put_set s)) h1.2.1
    have := emits_append _ _ _ _ _ h1 h2
    rw [List.replicate_succ]
    exact this

theorem emits_integer (x : Int) (n : Nat) (s : PutState) (h : s.currindex < 8) :
    emits s (PUT_ONE_INTEGER x n s) (int_bits x n) := by
  induction n generalizing s with
  | zero => exact emits_nil s h
  | succ n ih =>
    unfold PUT_ONE_INTEGER int_bits
    by_cases hx : (x >>> n) % 2 = 1
    · rw [if_pos hx]
      have h1 := emits_one s h
      have h2 := ih (put_next (put_set s)) h1.2.1
      simpa [hx] using emits_append _ _ _ _ _ h1 h2
    · rw [if_neg hx]
      have h1 := emits_zero s h
      have h2 := ih (put_next s) h1.2.1
      simpa [hx] using emits_append _ _ _ _ _ h1 h2

/-- For `b ≥ 1` an iteration of the main loop of `golomb_encode` writes the
code word of the gap. -/
theorem golomb_encode_symbol_emits (b k v : Nat) (s : PutState) (hb : 1 ≤ b)
    (h : s.currindex < 8) :
    ∃ s1, golomb_encode_symbol b k s v = .ok s1 ∧ emits s s1 (codeword_bits b k v) := by
  have hb0 : b ≠ 0 := by omega
  have h1 := emits_unary ((v - 1) / b) s h
  have h2 := emits_zero _ h1.2.1
  have h12 := emits_append _ _ _ _ _ h1 h2
  unfold golomb_encode_symbol codeword_bits
  simp only [hb0, if_false]
  split
  · refine ⟨_, rfl, ?_⟩
    have h3 := emits_integer ((v : Int) - ((v - 1) / b : Nat) * (b : Int) - 1 +
      (((1 <<< k : Nat) : Int) - (b : Int))) k _ h2.2.1
    have := emits_append _ _ _ _ _ h12 h3
    simpa using this
  · refine ⟨_, rfl, ?_⟩
    have h3 := emits_integer ((v : Int) - ((v - 1) / b : Nat) * (b : Int) - 1) (k - 1) _ h2.2.1
    have := emits_append _ _ _ _ _ h12 h3
    simpa using this

/-! ## The decoder reads the bit string of its input -/

theorem and_shift_ne_zero (m n : Nat) : decide (m &&& (1 <<< n) ≠ 0) = m.testBit n := by
  rw [Nat.one_shiftLeft, Nat.and_two_pow]
  have h2 : 0 < 2 ^ n := Nat.pos_pow_of_pos n (by norm_num)
  cases m.testBit n <;> simp

theorem buffer_bits_getElem? (mem : List Nat) (a i : Nat) (hi : i < 8) :
    (buffer_bits mem)[8 * a + i]? = (mem.get? a).map (fun byte => byte.testBit (7 - i)) := by
  by_cases ha : a < mem.length
  · have hl : 8 * a + i < (buffer_bits mem).length := by rw [buffer_bits_length]; omega
    have h := buffer_bits_getD mem [] a i ha hi
    rw [List.append_nil, List.getD_eq_getElem _ _ hl] at h
    rw [List.getElem?_eq_getElem hl, h, List.get?_eq_getElem?, List.getElem?_eq_getElem ha,
      List.getD_eq_getElem _ _ ha]
    rfl
  · have hl : (buffer_bits mem).length ≤ 8 * a + i := by rw [buffer_bits_length]; omega
    rw [List.getElem?_eq_none hl, List.get?_eq_getElem?, List.getElem?_eq_none (by omega)]
    rfl

theorem get_bit_eq (mem : List Nat) (c : GetState) (h : c.currindex < 8) :
    get_bit mem c =
      match (buffer_bits mem)[get_pos c]? with
      | some bit => .ok bit
      | none => .error .read_past_end := by
  unfold get_bit get_pos
  rw [buffer_bits_getElem? mem _ _ h]
  cases mem.get? c.bytecounter with
  | none => rfl
  | some byte =>
    simp only [Option.map_some']
    rw [and_shift_ne_zero]

theorem get_next_pos (c : GetState) (h : c.currindex < 8) :
    get_pos (get_next c) = get_pos c + 1 ∧ (get_next c).currindex < 8 := by
  unfold get_next get_carry get_pos
  by_cases h8 : c.currindex + 1 ≥ 8
  · simp only [h8, if_true]
    constructor <;> omega
  · simp only [h8, if_false]
    constructor <;> omega

/-- Reading one bit. -/
theorem reads_cons (mem : List Nat) (c : GetState) (bit : Bool) (L : List Bool)
    (h : reads mem c (bit :: L)) :
    get_bit mem c = .ok bit ∧ reads mem (get_next c) L ∧
      get_pos (get_next c) = get_pos c + 1 := by
  obtain ⟨hc, hd⟩ := h
  have hn := get_next_pos c hc
  have hb : (buffer_bits mem)[get_pos c]? = some bit := by
    have := congrArg (fun l => l[0]?) hd
    simpa using this
  refine ⟨by rw [get_bit_eq mem c hc, hb], ⟨hn.2, ?_⟩, hn.1⟩
  rw [hn.1, ← List.drop_drop, hd]
  rfl

/-- The loop that counts the one-bits in front of a zero-bit. -/
theorem unary_decode_reads (mem : List Nat) (q : Nat) (fuel : Nat) (c : GetState) (q0 : Nat)
    (L : List Bool) (hf : q < fuel) (h : reads mem c (List.replicate q true ++ false :: L)) :
    ∃ c1, unary_decode mem fuel c q0 = .ok (q0 + q, c1) ∧ reads mem (get_carry c1) L ∧
      get_pos (get_carry c1) = get_pos c + q + 1 := by
  induction q generalizing fuel c q0 with
  | zero =>
    obtain ⟨f, rfl⟩ : ∃ f, fuel = f + 1 := ⟨fuel - 1, by omega⟩
    obtain ⟨hb, hr, hp⟩ := reads_cons mem c false L (by simpa using h)
    exact ⟨_, by simp [unary_decode, hb], hr, hp⟩
  | succ q ih =>
    obtain ⟨f, rfl⟩ : ∃ f, fuel = f + 1 := ⟨fuel - 1, by omega⟩
    rw [List.replicate_succ, List.cons_append] at h
    obtain ⟨hb, hr, hp⟩ := reads_cons mem c true _ h
    obtain ⟨c1, hc1, hr1, hp1⟩ := ih f (get_next c) (q0 + 1) (by omega) hr
    refine ⟨c1, ?_, hr1, by rw [hp1, hp]; omega⟩
    simp only [unary_decode, hb]
    rw [show q0 + (q + 1) = q0 + 1 + q by omega]
    exact hc1

theorem GET_ONE_INTEGER_reads (mem : List Nat) (L1 L : List Bool) (c : GetState) (x : Int)
    (h : reads mem c (L1 ++ L)) :
    ∃ c1, GET_ONE_INTEGER mem L1.length c x = .ok (bits_value x L1, c1) ∧ reads mem c1 L ∧
      get_pos c1 = get_pos c + L1.length := by
  induction L1 generalizing c x with
  | nil => exact ⟨c, rfl, by simpa using h, rfl⟩
  | cons bit bs ih =>
    obtain ⟨hb, hr, hp⟩ := reads_cons mem c bit _ (by simpa using h)
    obtain ⟨c1, hc1, hr1, hp1⟩ := ih (get_next c) (2 * x + (if bit then 1 else 0)) hr
    refine ⟨c1, ?_, hr1, by rw [hp1, hp, List.length_cons]; omega⟩
    simp only [List.length_cons, GET_ONE_INTEGER, hb, bits_value]
    exact hc1

/-! ## Truncated binary codes -/

theorem bits_value_append (x : Int) (L1 L2 : List Bool) :
    bits_value x (L1 ++ L2) = bits_value (bits_value x L1) L2 := by
  induction L1 generalizing x with
  | nil => rfl
  | cons bit bs ih => simp [bits_value, ih]

theorem int_bits_succ (y : Int) (n : Nat) :
    int_bits y (n + 1) = int_bits (y >>> (1 : Nat)) n ++ [decide (y % 2 = 1)] := by
  induction n with
  | zero => simp [int_bits, Int.shiftRight_eq_div_pow]
  | succ n ih =>
    rw [int_bits, ih, int_bits, List.cons_append, ← Int.shiftRight_add, Nat.add_comm 1 n]

/-- Reading back the `n` bits of a number below `2 ^ n`. -/
theorem bits_value_int_bits (y : Int) (n : Nat) (h0 : 0 ≤ y) (hn : y < ((2 ^ n : Nat) : Int)) :
    bits_value 0 (int_bits y n) = y := by
  induction n generalizing y with
  | zero =>
    have : y = 0 := by
      have : y < 1 := by simpa using hn
      omega
    simp [int_bits, bits_value, this]
  | succ n ih =>
    have hdiv : y >>> (1 : Nat) = y / 2 := by
      rw [Int.shiftRight_eq_div_pow]
      norm_num
    have hpow : (2 : Nat) ^ (n + 1) = 2 * 2 ^ n := by ring
    rw [hpow] at hn
    rw [int_bits_succ, bits_value_append, hdiv, ih (y / 2) (by omega) (by omega)]
    by_cases h1 : y % 2 = 1
    · simp only [h1, decide_True, bits_value, if_true]
      omega
    · simp only [h1, decide_False, bits_value]
      simp
      omega

/-! ## The function `ceil_log2` -/

/-- The loop of `ceil_log2` on a positive `tmp` with binary length `j + 1`:
`last` ends as the position of the highest set bit, and `secondlast` ends as
`-1` exactly when no set bit was seen before and `tmp` is a power of two. -/
theorem ceil_log2_loop_spec (fuel tmp : Nat) (last secondlast count : Int) (ht : 0 < tmp)
    (hf : tmp ≤ fuel) (hc : 0 ≤ count) :
    ∃ j : Nat, 2 ^ j ≤ tmp ∧ tmp < 2 ^ (j + 1) ∧
      (ceil_log2_loop fuel tmp last secondlast count).1 = count + j ∧
      ((ceil_log2_loop fuel tmp last secondlast count).2 = -1 ↔ (last = -1 ∧ tmp = 2 ^ j)) := by
  induction fuel generalizing tmp last secondlast count with
  | zero => omega
  | succ fuel ih =>
    have ht0 : tmp ≠ 0 := by omega
    have hshift : tmp >>> 1 = tmp / 2 := by
      rw [Nat.shiftRight_eq_div_pow]
    unfold ceil_log2_loop
    simp only [ht0, if_false, Nat.and_one_is_mod, hshift]
    by_cases h1 : tmp = 1
    · subst h1
      refine ⟨0, by norm_num, by norm_num, ?_, ?_⟩
      · simp [ceil_log2_loop]
        cases fuel <;> simp [ceil_log2_loop]
      · simp
        cases fuel <;> simp [ceil_log2_loop]
    · have hhalf : 0 < tmp / 2 := by omega
      have hfuel : tmp / 2 ≤ fuel := by omega
      by_cases hodd : tmp % 2 ≠ 0
      · rw [if_pos hodd]
        obtain ⟨j, hj1, hj2, hj3, hj4⟩ := ih (tmp / 2) count last (count + 1) hhalf hfuel
          (by omega)
        have hp1 : 2 ^ (j + 1) = 2 * 2 ^ j := by ring
        have hp2 : 2 ^ (j + 1 + 1) = 2 * 2 ^ (j + 1) := by ring
        refine ⟨j + 1, by omega, by omega, by rw [hj3]; push_cast; omega, ?_⟩
        rw [hj4]
        constructor
        · rintro ⟨h, _⟩
          omega
        · rintro ⟨_, h⟩
          omega
      · rw [if_neg hodd]
        obtain ⟨j, hj1, hj2, hj3, hj4⟩ := ih (tmp / 2) last secondlast (count + 1) hhalf hfuel
          (by omega)
        have hp1 : 2 ^ (j + 1) = 2 * 2 ^ j := by ring
        have hp2 : 2 ^ (j + 1 + 1) = 2 * 2 ^ (j + 1) := by ring
        refine ⟨j + 1, by omega, by omega, by rw [hj3]; push_cast; omega, ?_⟩
        rw [hj4]
        constructor
        · rintro ⟨h, h2⟩
          exact ⟨h, by omega⟩
        · rintro ⟨h, h2⟩
          exact ⟨h, by omega⟩

/-- For `b ≥ 1` the value `k` of `ceil_log2 (b)` is the least `k` with
`b ≤ 2 ^ k`. -/
theorem ceil_log2_spec (b : Nat) (hb : 1 ≤ b) :
    ∃ k : Nat, ceil_log2 b = k ∧ b ≤ 2 ^ k ∧ (k = 0 ∨ 2 ^ (k - 1) < b) := by
  obtain ⟨j, hj1, hj2, hj3, hj4⟩ := ceil_log2_loop_spec b b (-1) (-1) 0 (by omega) (le_refl _)
    (le_refl _)
  unfold ceil_log2
  simp only []
  by_cases hpow : b = 2 ^ j
  · have h2 : (ceil_log2_loop b b (-1) (-1) 0).2 = -1 := hj4.mpr ⟨rfl, hpow⟩
    refine ⟨j, by rw [if_pos h2, hj3]; simp, by omega, ?_⟩
    by_cases hj0 : j = 0
    · exact Or.inl hj0
    · right
      obtain ⟨i, rfl⟩ : ∃ i, j = i + 1 := ⟨j - 1, by omega⟩
      have hp1 : 2 ^ (i + 1) = 2 * 2 ^ i := by ring
      have hpos : 0 < 2 ^ i := Nat.pos_pow_of_pos i (by norm_num)
      simp only [Nat.add_sub_cancel]
      omega
  · have h2 : ¬ (ceil_log2_loop b b (-1) (-1) 0).2 = -1 := fun h => hpow (hj4.mp h).2
    refine ⟨j + 1, by rw [if_neg h2, hj3]; push_cast; omega, by omega, Or.inr ?_⟩
    simp only [Nat.add_sub_cancel]
    omega

theorem to_unsigned_natCast (k : Nat) (h : k < 4294967296) : to_unsigned (k : Int) = k := by
  unfold to_unsigned
  omega

/-- For `2 ≤ b` below `2 ^ 31` the width `log2_b` used by the coder is at least
1, `b ≤ 2 ^ log2_b` and `2 ^ (log2_b - 1) < b`. -/
theorem log2_b_spec (b : Nat) (hb : 2 ≤ b) (hint : b < 2 ^ 31) :
    1 ≤ to_unsigned (ceil_log2 b) ∧ b ≤ 2 ^ to_unsigned (ceil_log2 b) ∧
      2 ^ (to_unsigned (ceil_log2 b) - 1) < b := by
  obtain ⟨k, hk, h1, h2⟩ := ceil_log2_spec b (by omega)
  have hk31 : k ≤ 31 := by
    by_contra hcon
    rcases h2 with h2 | h2
    · omega
    · have : 2 ^ 31 ≤ 2 ^ (k - 1) := Nat.pow_le_pow_right (by norm_num) (by omega)
      omega
  rw [hk, to_unsigned_natCast k (by omega)]
  have hk0 : k ≠ 0 := by
    intro h0
    rw [h0] at h1
    simp at h1
    omega
  refine ⟨by omega, h1, ?_⟩
  rcases h2 with h2 | h2
  · exact absurd h2 hk0
  · exact h2

/-! ## One code word, written and read back -/

/-- The quotient and remainder of `golomb_encode`: for `v ≥ 1` and `b ≥ 1` the
remainder lies in `1 .. b`. -/
theorem golomb_remainder_range (b v : Nat) (hb : 1 ≤ b) (hv : 1 ≤ v) :
    (1 : Int) ≤ (v : Int) - (((v - 1) / b : Nat) : Int) * (b : Int) ∧
      (v : Int) - (((v - 1) / b : Nat) : Int) * (b : Int) ≤ (b : Int) := by
  have h1 := Nat.div_add_mod (v - 1) b
  have h2 := Nat.mod_lt (v - 1) (by omega : b > 0)
  have h3 : (((v - 1) / b : Nat) : Int) * (b : Int) = ((b * ((v - 1) / b) : Nat) : Int) := by
    push_cast
    ring
  rw [h3]
  generalize b * ((v - 1) / b) = m at h1 ⊢
  constructor <;> omega

/-- For a width `k ≥ 1` with `2 ^ (k - 1) < b ≤ 2 ^ k`, an iteration of the main
loop of `golomb_decode` that starts on the code word of a gap `v ≥ 1` returns
`v` and stops behind the code word. -/
theorem golomb_decode_symbol_reads (b k v : Nat) (hv : 1 ≤ v) (hk1 : 1 ≤ k)
    (hk2 : b ≤ 2 ^ k) (hk3 : 2 ^ (k - 1) < b) (mem : List Nat) (c : GetState) (L : List Bool)
    (h : reads mem c (codeword_bits b k v ++ L)) :
    ∃ c1, golomb_decode_symbol mem b k c = .ok (v, c1) ∧ reads mem c1 L ∧
      get_pos c1 = get_pos c + (codeword_bits b k v).length := by
  have hb : 1 ≤ b := by
    have : 0 < 2 ^ (k - 1) := Nat.pos_pow_of_pos _ (by norm_num)
    omega
  have hb0 : b ≠ 0 := by omega
  obtain ⟨hr1, hr2⟩ := golomb_remainder_range b v hb hv
  obtain ⟨n, rfl⟩ : ∃ n, k = n + 1 := ⟨k - 1, by omega⟩
  have hpow : (2 : Nat) ^ (n + 1) = 2 * 2 ^ n := by ring
  simp only [Nat.add_sub_cancel, hpow] at hk2 hk3 h ⊢
  have hlen : (codeword_bits b (n + 1) v ++ L).length ≤ 8 * mem.length := by
    rw [← h.2, List.length_drop, buffer_bits_length]
    omega
  have hq : (v - 1) / b < 8 * mem.length + 1 := by
    unfold codeword_bits at hlen
    simp only [List.length_append, List.length_replicate, List.length_cons] at hlen
    omega
  have hdiv : ∀ y : Int, y >>> (1 : Nat) = y / 2 := by
    intro y
    rw [Int.shiftRight_eq_div_pow]
    norm_num
  unfold codeword_bits at h ⊢
  unfold golomb_decode_symbol
  simp only [Nat.one_shiftLeft, Nat.add_sub_cancel, hpow] at h ⊢
  rw [List.append_assoc, List.cons_append] at h
  generalize hr : (v : Int) - (((v - 1) / b : Nat) : Int) * (b : Int) = r at h hr1 hr2 ⊢
  obtain ⟨c1, hc1, hrd1, hp1⟩ := unary_decode_reads mem ((v - 1) / b) (8 * mem.length + 1) c 0 _
    hq h
  simp only [hc1, hb0, if_false, Nat.zero_add]
  by_cases hgt : r > ((2 * 2 ^ n : Nat) : Int) - (b : Int)
  · simp only [hgt, if_true] at hrd1 ⊢
    rw [int_bits_succ, List.append_assoc] at hrd1
    obtain ⟨c2, hc2, hrd2, hp2⟩ := GET_ONE_INTEGER_reads mem _ _ _ 0 hrd1
    rw [int_bits_length] at hc2 hp2
    have hval := bits_value_int_bits
      ((r - 1 + (((2 * 2 ^ n : Nat) : Int) - (b : Int))) >>> (1 : Nat)) n
      (by rw [hdiv]; omega) (by rw [hdiv]; omega)
    rw [hval] at hc2
    obtain ⟨hb3, hrd3, hp3⟩ := reads_cons mem c2 _ L hrd2
    have htest : (r - 1 + (((2 * 2 ^ n : Nat) : Int) - (b : Int))) >>> (1 : Nat) + 1 >
        ((2 * 2 ^ n : Nat) : Int) - (b : Int) := by
      rw [hdiv]
      omega
    simp only [hc2, htest, if_true, hb3]
    refine ⟨get_next c2, ?_, hrd3, ?_⟩
    · congr 2
      rw [hdiv]
      by_cases hodd : (r - 1 + (((2 * 2 ^ n : Nat) : Int) - (b : Int))) % 2 = 1
      · simp only [hodd, decide_True, if_true]
        omega
      · simp only [hodd, decide_False, Bool.false_eq_true, if_false]
        omega
    · rw [hp3, hp2, hp1]
      simp only [List.length_append, List.length_replicate, List.length_cons, int_bits_length,
        List.length_nil]
      omega
  · simp only [hgt, if_false] at hrd1 ⊢
    obtain ⟨c2, hc2, hrd2, hp2⟩ := GET_ONE_INTEGER_reads mem _ _ _ 0 hrd1
    rw [int_bits_length] at hc2 hp2
    have hval := bits_value_int_bits (r - 1) n (by omega) (by omega)
    rw [hval] at hc2
    have htest : ¬ (r - 1 + 1 > ((2 * 2 ^ n : Nat) : Int) - (b : Int)) := by omega
    simp only [hc2, htest, if_false]
    refine ⟨c2, ?_, hrd2, ?_⟩
    · congr 2
      omega
    · rw [hp2, hp1]
      simp only [List.length_append, List.length_replicate, List.length_cons, int_bits_length]
      omega

/-- For `2 ≤ b < 2 ^ 31` and a gap `v ≥ 1`: the iteration of `golomb_encode`
writes a bit string `W` of the length of the code word, and the iteration of
`golomb_decode`, started where its input continues with `W` followed by any
bits `L`, returns `v` and stops in front of `L`. -/
theorem golomb_symbol_round_trip (b v : Nat) (hb : 2 ≤ b) (hint : b < 2 ^ 31) (hv : 1 ≤ v)
    (s : PutState) (hs : s.currindex < 8) (mem : List Nat) (c : GetState) (L : List Bool) :
    ∃ s1 W, golomb_encode_symbol b (to_unsigned (ceil_log2 b)) s v = .ok s1 ∧ emits s s1 W ∧
      W.length = codeword_length b (to_unsigned (ceil_log2 b)) v ∧
      (reads mem c (W ++ L) →
        ∃ c1, golomb_decode_symbol mem b (to_unsigned (ceil_log2 b)) c = .ok (v, c1) ∧
          reads mem c1 L ∧ get_pos c1 = get_pos c + W.length) := by
  obtain ⟨hk1, hk2, hk3⟩ := log2_b_spec b hb hint
  obtain ⟨s1, hs1, hem⟩ := golomb_encode_symbol_emits b (to_unsigned (ceil_log2 b)) v s
    (by omega) hs
  exact ⟨s1, _, hs1, hem, codeword_bits_length _ _ _, fun hrd =>
    golomb_decode_symbol_reads b _ v hv hk1 hk2 hk3 mem c L hrd⟩

/-! ## Buffers of zero bytes -/

theorem byte_bits_zero : byte_bits 0 = List.replicate 8 false := by decide

theorem buffer_bits_replicate_zero (n : Nat) :
    buffer_bits (List.replicate n 0) = List.replicate (8 * n) false := by
  induction n with
  | zero => rfl
  | succ n ih =>
    rw [List.replicate_succ, buffer_bits, ih, byte_bits_zero, List.append_replicate_replicate]
    congr 1
    omega

theorem gaps_from_replicate_false (c m : Nat) (L : List Bool) :
    gaps_from c (List.replicate m false ++ L) = gaps_from (c + m) L := by
  induction m generalizing c with
  | zero => rfl
  | succ m ih =>
    rw [List.replicate_succ, List.cons_append, gaps_from, ih]
    congr 1
    omega

theorem gaps_from_allones (c : Nat) :
    gaps_from c (List.replicate 8 true) = (c + 1) :: List.replicate 7 1 := by
  simp [List.replicate, gaps_from]

/-- The gaps returned for a buffer of `n` zero bytes. -/
theorem get_run_length_encoding_zeros (n : Nat) :
    get_run_length_encoding (List.replicate n 0) = .ok ((8 * n + 1) :: List.replicate 7 1) := by
  have hB : ∀ x ∈ List.replicate n 0, x < 256 := by
    intro x hx
    rw [List.eq_of_mem_replicate hx]
    norm_num
  rw [get_run_length_encoding_eq _ hB, buffer_bits_replicate_zero, gaps_from_replicate_false,
    gaps_from_allones]
  simp

/-! ## No input is rejected -/

theorem length_le_sum (l : List Nat) (h : ∀ x ∈ l, 1 ≤ x) : l.length ≤ l.sum := by
  induction l with
  | nil => simp
  | cons a l ih =>
    have ha := h a (List.mem_cons_self _ _)
    have := ih (fun x hx => h x (List.mem_cons_of_mem _ hx))
    simp only [List.length_cons, List.sum_cons]
    omega

/-- The number of gaps is at most the number of bits scanned. -/
theorem gaps_from_length_le (c : Nat) (bs : List Bool) :
    (gaps_from c bs).length ≤ c + bs.length := by
  have h1 := length_le_sum _ (gaps_from_pos c bs)
  have h2 := gaps_from_sum c bs
  omega

/-- For every byte buffer, of whatever length, and every `b ≥ 1` both encoders
return a result; the run-length encoder returns at most `8 * size + 8` gaps. -/
theorem encoders_succeed (stale : Nat → Nat) (b : Nat) (B : List Nat) (hb : 1 ≤ b)
    (hB : ∀ x ∈ B, x < 256) :
    ∃ g P, get_run_length_encoding B = .ok g ∧ g.length ≤ 8 * B.length + 8 ∧
      golomb_encode stale b B = .ok P := by
  have hg := get_run_length_encoding_eq B hB
  obtain ⟨s1, hs1, -, -⟩ := golomb_encode_loop_pos b (to_unsigned (ceil_log2 b))
    (gaps_from 0 (buffer_bits B ++ List.replicate 8 true)) ⟨memset_scratch stale, 0, 0⟩ hb
    (by simp)
  refine ⟨_, (List.range s1.bytecounter).map s1.buf, hg, ?_, ?_⟩
  · have := gaps_from_length_le 0 (buffer_bits B ++ List.replicate 8 true)
    simp only [List.length_append, buffer_bits_length, List.length_replicate] at this
    omega
  · simp only [golomb_encode, hg, hs1]

theorem replicate_lt_256 (n v : Nat) (hv : v < 256) : ∀ x ∈ List.replicate n v, x < 256 := by
  intro x hx
  rw [List.eq_of_mem_replicate hx]
  exact hv

/-- For a power of two below `2 ^ 31` the width `log2_b` is the exponent. -/
theorem log2_b_two_pow (k : Nat) (hk : k ≤ 30) : to_unsigned (ceil_log2 (2 ^ k)) = k := by
  have hpos : 1 ≤ 2 ^ k := Nat.one_le_two_pow
  obtain ⟨j, hj, h1, h2⟩ := ceil_log2_spec (2 ^ k) hpos
  have hkj : k ≤ j := (Nat.pow_le_pow_iff_right (by norm_num)).mp h1
  have hjk : j ≤ k := by
    rcases h2 with h2 | h2
    · omega
    · have := (Nat.pow_lt_pow_iff_right (by norm_num)).mp h2
      omega
  have : j = k := by omega
  subst this
  rw [hj, to_unsigned_natCast j (by omega)]

/-! ## The code of a gap sequence -/

theorem golomb_encode_loop_emits (b k : Nat) (g : List Nat) (s : PutState) (hb : 1 ≤ b)
    (h : s.currindex < 8) :
    ∃ s1, golomb_encode_loop b k g s = .ok s1 ∧ emits s s1 (code_bits b k g) := by
  induction g generalizing s with
  | nil => exact ⟨s, rfl, emits_nil s h⟩
  | cons v vs ih =>
    obtain ⟨s1, hs1, he1⟩ := golomb_encode_symbol_emits b k v s hb h
    obtain ⟨s2, hs2, he2⟩ := ih s1 he1.2.1
    exact ⟨s2, by simp only [golomb_encode_loop, hs1, hs2], emits_append _ _ _ _ _ he1 he2⟩

theorem int_bits_natCast (m n : Nat) : int_bits (m : Int) n = nat_bits m n := by
  induction n with
  | zero => rfl
  | succ n ih =>
    rw [int_bits, nat_bits, ih, Int.natCast_shiftRight, Nat.testBit_to_div_mod,
      Nat.shiftRight_eq_div_pow]
    congr 1
    have : (((m / 2 ^ n : Nat) : Int) % 2 = 1) ↔ (m / 2 ^ n % 2 = 1) := by omega
    simp only [this]

theorem least_exponent_from_spec (b fuel k0 : Nat) (hf : b ≤ 2 ^ (k0 + fuel))
    (hmin : ∀ j, b ≤ 2 ^ j → k0 ≤ j) :
    b ≤ 2 ^ least_exponent_from b fuel k0 ∧
      ∀ j, b ≤ 2 ^ j → least_exponent_from b fuel k0 ≤ j := by
  induction fuel generalizing k0 with
  | zero => exact ⟨by simpa [least_exponent_from] using hf, by simpa [least_exponent_from] using hmin⟩
  | succ fuel ih =>
    unfold least_exponent_from
    by_cases h : b ≤ 2 ^ k0
    · rw [if_pos h]
      exact ⟨h, hmin⟩
    · rw [if_neg h]
      apply ih (k0 + 1)
      · rw [show k0 + 1 + fuel = k0 + (fuel + 1) by omega]
        exact hf
      · intro j hj
        have hk := hmin j hj
        have hne : j ≠ k0 := fun e => h (e ▸ hj)
        omega

/-- The number `ceil_log2_exact b` is the least `k` with `b ≤ 2 ^ k`. -/
theorem ceil_log2_exact_spec (b : Nat) :
    b ≤ 2 ^ ceil_log2_exact b ∧ ∀ j, b ≤ 2 ^ j → ceil_log2_exact b ≤ j :=
  least_exponent_from_spec b b 0 (by rw [Nat.zero_add]; exact le_of_lt (Nat.lt_two_pow b))
    (fun _ _ => Nat.zero_le _)

/-- For `1 ≤ b < 2 ^ 31` the width `log2_b` used by the coder is the least `k`
with `b ≤ 2 ^ k`. -/
theorem log2_b_eq_exact (b : Nat) (hb : 1 ≤ b) (hint : b < 2 ^ 31) :
    to_unsigned (ceil_log2 b) = ceil_log2_exact b := by
  obtain ⟨k, hk, h1, h2⟩ := ceil_log2_spec b hb
  obtain ⟨he1, he2⟩ := ceil_log2_exact_spec b
  have hle : ceil_log2_exact b ≤ k := he2 k h1
  have hge : k ≤ ceil_log2_exact b := by
    rcases h2 with h2 | h2
    · omega
    · have hlt : 2 ^ (k - 1) < 2 ^ ceil_log2_exact b := lt_of_lt_of_le h2 he1
      have := (Nat.pow_lt_pow_iff_right (by norm_num)).mp hlt
      omega
  have hk31 : k ≤ 31 := by
    by_contra hcon
    rcases h2 with h2 | h2
    · omega
    · have : 2 ^ 31 ≤ 2 ^ (k - 1) := Nat.pow_le_pow_right (by norm_num) (by omega)
      omega
  rw [hk, to_unsigned_natCast k (by omega)]
  omega

/-- The code word that the encoder writes is the code word of the
specification. -/
theorem codeword_bits_eq_spec (b v : Nat) (hb : 1 ≤ b) (hint : b < 2 ^ 31) (hv : 1 ≤ v) :
    codeword_bits b (to_unsigned (ceil_log2 b)) v = spec_codeword b v := by
  obtain ⟨hr1, hr2⟩ := golomb_remainder_range b v hb hv
  have hk : b ≤ 2 ^ ceil_log2_exact b := (ceil_log2_exact_spec b).1
  have hqle : (v - 1) / b * b ≤ v - 1 := Nat.div_mul_le_self _ _
  rw [log2_b_eq_exact b hb hint]
  unfold codeword_bits spec_codeword
  simp only [Nat.one_shiftLeft, List.append_assoc, List.singleton_append]
  have hr : (v : Int) - (((v - 1) / b : Nat) : Int) * (b : Int) = ((v - (v - 1) / b * b : Nat) : Int) := by
    have : (((v - 1) / b : Nat) : Int) * (b : Int) = (((v - 1) / b * b : Nat) : Int) := by
      push_cast
      ring
    rw [this]
    omega
  have hd : ((2 ^ ceil_log2_exact b : Nat) : Int) - (b : Int) = ((2 ^ ceil_log2_exact b - b : Nat) : Int) := by
    omega
  rw [hr] at hr1 hr2 ⊢
  rw [hd]
  congr 2
  by_cases hgt : v - (v - 1) / b * b > 2 ^ ceil_log2_exact b - b
  · have hgt' : ((v - (v - 1) / b * b : Nat) : Int) > ((2 ^ ceil_log2_exact b - b : Nat) : Int) := by
      omega
    rw [if_pos hgt, if_pos hgt']
    have : ((v - (v - 1) / b * b : Nat) : Int) - 1 + ((2 ^ ceil_log2_exact b - b : Nat) : Int) =
        ((v - (v - 1) / b * b - 1 + (2 ^ ceil_log2_exact b - b) : Nat) : Int) := by omega
    rw [this, int_bits_natCast]
  · have hgt' : ¬ ((v - (v - 1) / b * b : Nat) : Int) > ((2 ^ ceil_log2_exact b - b : Nat) : Int) := by
      omega
    rw [if_neg hgt, if_neg hgt']
    have : ((v - (v - 1) / b * b : Nat) : Int) - 1 = ((v - (v - 1) / b * b - 1 : Nat) : Int) := by
      omega
    rw [this, int_bits_natCast]

theorem code_bits_eq_spec (b : Nat) (g : List Nat) (hb : 1 ≤ b) (hint : b < 2 ^ 31)
    (hg : ∀ v ∈ g, 1 ≤ v) : code_bits b (to_unsigned (ceil_log2 b)) g = spec_code b g := by
  induction g with
  | nil => rfl
  | cons v vs ih =>
    rw [code_bits, spec_code, codeword_bits_eq_spec b v hb hint (hg v (List.mem_cons_self _ _)),
      ih (fun x hx => hg x (List.mem_cons_of_mem _ hx))]

theorem bit_at_memset_scratch (stale : Nat → Nat) (p : Nat) (hp : p < 8 * (4 * MAX_INPUT_SIZE)) :
    bit_at (memset_scratch stale) p = false := by
  unfold bit_at
  rw [memset_scratch_zero stale (p / 8) (by omega)]
  simp

/-! ## The bits of the decoded buffer -/

/-- The length returned by `get_run_length_decoding`. -/
theorem get_run_length_decoding_length (stale : Nat → Nat) (g : List Nat) :
    (get_run_length_decoding stale g).2 = (g.sum - 1) / 8 := by
  have hat := rld_foldl_at g _ 0 (rld_start stale)
  have h2 := hat.2
  simp only [get_run_length_decoding, rld_loop]
  omega

theorem get_run_length_decoding_getD (stale : Nat → Nat) (g : List Nat) (a : Nat)
    (ha : a < (get_run_length_decoding stale g).2) :
    (get_run_length_decoding stale g).1.getD a 0 = (rld_loop stale g).buf a := by
  simp only [get_run_length_decoding] at ha ⊢
  rw [List.getD_eq_getElem _ _ (by simpa using ha)]
  simp

/-- A bit of the output is set when it was set in the buffer as `memset` left
it or when its position is a running sum of the gaps. -/
theorem get_run_length_decoding_bit (stale : Nat → Nat) (g : List Nat) (j : Nat) (hj1 : 1 ≤ j)
    (hj2 : j ≤ 8 * (get_run_length_decoding stale g).2) :
    output_bit (get_run_length_decoding stale g).1 j =
      ((memset_scratch stale ((j - 1) / 8)).testBit (7 - (j - 1) % 8) ||
        decide (j ∈ prefix_sums 0 g)) := by
  unfold output_bit
  rw [get_run_length_decoding_getD stale g _ (by omega)]
  unfold rld_loop
  rw [rld_foldl_testBit g _ 0 _ _ (rld_start stale) (by omega)]
  have : 8 * ((j - 1) / 8) + 8 - (7 - (j - 1) % 8) = j := by omega
  rw [this]

/-! ## The sentinel byte at the end of the gap sequence -/

/-- The gaps of a bit string followed by the eight set bits of the sentinel:
the gaps of the string, the gap that ends at the first sentinel bit, and seven
gaps of 1. -/
theorem gaps_from_sentinel (c : Nat) (bs : List Bool) :
    gaps_from c (bs ++ List.replicate 8 true) =
      (gaps_from c bs ++ [pending_from c bs + 1]) ++ List.replicate 7 1 := by
  rw [gaps_from_append, gaps_from_allones]
  simp

/-! ## The number of gaps -/

theorem rle_for_append (v : Nat) (xs ys : List Nat) (s : RleState) :
    rle_for v (xs ++ ys) s =
      (match rle_for v xs s with
        | .ok s1 => rle_for v ys s1
        | .error e => .error e) := by
  induction xs generalizing s with
  | nil => simp [rle_for]
  | cons x xs ih =>
    simp only [List.cons_append, rle_for]
    cases rle_inner v s x with
    | error e => rfl
    | ok s1 => exact ih s1

/-- The first `j` iterations of a loop over `j` that runs to its end. -/
theorem rle_for_initial (v j : Nat) (s s2 : RleState) (hj : j ≤ rle_lookup_size v)
    (h : rle_byte v s = .ok s2) : ∃ s1, rle_for v (List.range j) s = .ok s1 := by
  unfold rle_byte at h
  have hr : List.range (rle_lookup_size v) =
      List.range j ++ (List.range (rle_lookup_size v - j)).map (fun i => j + i) := by
    rw [← List.range_add]
    congr 1
    omega
  rw [hr, rle_for_append] at h
  cases hp : rle_for v (List.range j) s with
  | error e => simp [hp] at h
  | ok s1 => exact ⟨s1, rfl⟩

set_option maxRecDepth 100000 in
theorem rle_lookup_size_le : ∀ v, v < 256 → rle_lookup_size v ≤ 9 := by decide

/-- An iteration of the main loop of `golomb_encode` compares the remainder with
`golomb_d` and passes `r - 1 + d` or `r - 1` to `PUT_ONE_INTEGER`. -/
theorem golomb_encode_symbol_d (b log2_b : Nat) (s : PutState) (v : Nat) (hb : b ≠ 0) :
    golomb_encode_symbol b log2_b s v =
      .ok (if golomb_remainder b v > golomb_d b log2_b then
          PUT_ONE_INTEGER (golomb_remainder b v - 1 + golomb_d b log2_b) log2_b
            (put_next (put_unary (golomb_quotient b v) s))
        else
          PUT_ONE_INTEGER (golomb_remainder b v - 1) (log2_b - 1)
            (put_next (put_unary (golomb_quotient b v) s))) := by
  unfold golomb_encode_symbol golomb_remainder golomb_quotient golomb_d
  simp only [hb, if_false]
  split <;> rfl

/-! ## Gaps of 0 -/

theorem drop_zero_gaps_sum (g : List Nat) : (drop_zero_gaps g).sum = g.sum := by
  induction g with
  | nil => rfl
  | cons x xs ih =>
    unfold drop_zero_gaps at ih ⊢
    by_cases hx : x = 0
    · subst hx
      simp [ih]
    · simp [List.filter_cons, hx, ih]

/-- A gap of 0 repeats a running sum: apart from the start value the running
sums are the same with and without the gaps of 0. -/
theorem running_sums_drop_zero (g : List Nat) (acc j : Nat) (hj : j ≠ acc) :
    j ∈ prefix_sums acc (drop_zero_gaps g) ↔ j ∈ prefix_sums acc g := by
  induction g generalizing acc with
  | nil => simp [drop_zero_gaps]
  | cons x xs ih =>
    unfold drop_zero_gaps at ih ⊢
    by_cases hx : x = 0
    · subst hx
      have h := ih acc hj
      simp only [List.filter_cons, bne_self_eq_false, Bool.false_eq_true, if_false, prefix_sums,
        Nat.add_zero, List.mem_cons]
      rw [h]
      constructor
      · intro h1; exact Or.inr h1
      · intro h1
        rcases h1 with h1 | h1
        · exact absurd h1 hj
        · exact h1
    · have hx1 : (x != 0) = true := by simp [hx]
      simp only [List.filter_cons, hx1, if_true, prefix_sums, List.mem_cons]
      by_cases hjx : j = acc + x
      · simp [hjx]
      · rw [ih (acc + x) hjx]

/-- The decoder leaves the same buffer with and without the gaps of 0. -/
theorem rld_loop_drop_zero (stale : Nat → Nat) (g : List Nat) (a : Nat) :
    (rld_loop stale (drop_zero_gaps g)).buf a = (rld_loop stale g).buf a := by
  apply Nat.eq_of_testBit_eq
  intro k
  unfold rld_loop
  by_cases hk : k < 8
  · rw [rld_foldl_testBit _ _ 0 a k (rld_start stale) hk,
      rld_foldl_testBit _ _ 0 a k (rld_start stale) hk]
    have hne : 8 * a + 8 - k ≠ 0 := by omega
    have := running_sums_drop_zero g 0 _ hne
    simp only [this]
  · have h1 := rld_foldl_lt (drop_zero_gaps g) ⟨memset_scratch stale, 0, 1⟩
      (memset_scratch_lt stale) a
    have h2 := rld_foldl_lt g ⟨memset_scratch stale, 0, 1⟩ (memset_scratch_lt stale) a
    have hp : 2 ^ 8 ≤ 2 ^ k := Nat.pow_le_pow_right (by norm_num) (by omega)
    rw [Nat.testBit_lt_two_pow (by omega), Nat.testBit_lt_two_pow (by omega)]

theorem get_run_length_decoding_drop_zero (stale : Nat → Nat) (g : List Nat) :
    get_run_length_decoding stale (drop_zero_gaps g) = get_run_length_decoding stale g := by
  have h1 := get_run_length_decoding_length stale (drop_zero_gaps g)
  have h2 := get_run_length_decoding_length stale g
  rw [drop_zero_gaps_sum] at h1
  have hbc : (rld_loop stale (drop_zero_gaps g)).bytecounter - 1 =
      (rld_loop stale g).bytecounter - 1 := by
    simp only [get_run_length_decoding] at h1 h2
    omega
  simp only [get_run_length_decoding]
  rw [hbc]
  have hf : (rld_loop stale (drop_zero_gaps g)).buf = (rld_loop stale g).buf :=
    funext (rld_loop_drop_zero stale g)
  rw [hf]

/-! ## The model inside the scratch buffers and inside 32 bits -/

set_option maxRecDepth 100000 in
theorem rle_lookup_at_le : ∀ v, v < 256 → ∀ j, j < 9 → rle_lookup_at v j ≤ 8 := by decide

theorem rle_splice_cells (x m : Nat) (r r1 : List Nat) (h : rle_splice x r = .ok r1)
    (hm : ∀ e ∈ r, e ≤ m) : ∀ e ∈ r1, e ≤ m + x := by
  unfold rle_splice at h
  split at h
  · injection h with h
    intro e he
    rw [← h] at he
    have he1 := List.mem_of_mem_take he
    rcases List.mem_or_eq_of_mem_set he1 with h1 | h1
    · have := hm e h1
      omega
    · rw [h1]
      have h2 : r.getD (r.length - 2) 0 ≤ m := by
        rw [List.getD_eq_getElem _ _ (by omega)]
        exact hm _ (List.getElem_mem _)
      omega
  · cases h

/-- One iteration of the loop over `j` raises no cell of `rle` by more than 8. -/
theorem rle_inner_cells (v j m : Nat) (s s1 : RleState) (hv : v < 256) (hj : j < 9)
    (h : rle_inner v s j = .ok s1) (hm : ∀ e ∈ s.rle, e ≤ m) : ∀ e ∈ s1.rle, e ≤ m + 8 := by
  have hl := rle_lookup_at_le v hv j hj
  have hl0 := rle_lookup_at_le v hv 0 (by omega)
  unfold rle_inner at h
  split at h
  · split at h
    · cases hs : rle_splice (rle_lookup_at v 0) s.rle with
      | error e => simp [hs] at h
      | ok r =>
        simp only [hs] at h
        injection h with h
        intro e he
        rw [← h] at he
        have := rle_splice_cells _ m _ _ hs hm e he
        omega
    · cases hs : rle_splice 1 s.rle with
      | error e => simp [hs] at h
      | ok r =>
        simp only [hs] at h
        injection h with h
        intro e he
        rw [← h] at he
        have := rle_splice_cells _ m _ _ hs hm e he
        omega
  · injection h with h
    intro e he
    rw [← h] at he
    rcases List.mem_append.mp he with h1 | h1
    · have := hm e h1
      omega
    · simp at h1
      omega

theorem rle_for_cells (v m : Nat) (js : List Nat) (s s1 : RleState) (hv : v < 256)
    (hjs : ∀ j ∈ js, j < 9) (h : rle_for v js s = .ok s1) (hm : ∀ e ∈ s.rle, e ≤ m) :
    ∀ e ∈ s1.rle, e ≤ m + 8 * js.length := by
  induction js generalizing s m with
  | nil =>
    simp only [rle_for] at h
    injection h with h
    rw [← h]
    simpa using hm
  | cons j js ih =>
    simp only [rle_for] at h
    cases hi : rle_inner v s j with
    | error e => simp [hi] at h
    | ok s2 =>
      simp only [hi] at h
      have h1 := rle_inner_cells v j m s s2 hv (hjs j (List.mem_cons_self _ _)) hi hm
      have h2 := ih (m + 8) s2 (fun i hi => hjs i (List.mem_cons_of_mem _ hi)) h h1
      intro e he
      have := h2 e he
      simp only [List.length_cons]
      omega

theorem gaps_from_le (c : Nat) (bs : List Bool) : ∀ e ∈ gaps_from c bs, e ≤ c + bs.length := by
  intro e he
  have h1 := List.single_le_sum (fun x _ => Nat.zero_le x) e he
  have h2 := gaps_from_sum c bs
  omega

theorem pending_from_le (c : Nat) (bs : List Bool) : pending_from c bs ≤ c + bs.length := by
  have h2 := gaps_from_sum c bs
  omega

theorem rle_state_of_cells (g : List Nat) (c m : Nat) (hg : ∀ e ∈ g, e ≤ m) (hc : c ≤ m) :
    ∀ e ∈ (rle_state_of g c).rle, e ≤ m := by
  unfold rle_state_of
  split
  · exact hg
  · intro e he
    simp only [List.mem_append, List.mem_cons, List.mem_singleton, List.not_mem_nil,
      or_false] at he
    rcases he with h1 | h1 | h1
    · exact hg e h1
    · omega
    · omega

/-- In every state inside the loops of the encoder every cell of `rle` is at
most `8 * n + 72` for a buffer of `n` bytes. -/
theorem rle_state_within_cells (B B1 B2 : List Nat) (v j : Nat) (hB : ∀ x ∈ B, x < 256)
    (hsplit : B ++ [255] = B1 ++ v :: B2) (hj : j ≤ rle_lookup_size v) :
    ∃ s, rle_state_within B1 v j = .ok s ∧ ∀ e ∈ s.rle, e ≤ 8 * B.length + 72 := by
  have hall : ∀ x ∈ B ++ [255], x < 256 := by
    intro x hx
    rcases List.mem_append.mp hx with hx | hx
    · exact hB x hx
    · simp at hx
      omega
  rw [hsplit] at hall
  have hB1 : ∀ x ∈ B1, x < 256 := fun x hx => hall x (List.mem_append_left _ hx)
  have hv : v < 256 := hall v (List.mem_append_right _ (List.mem_cons_self _ _))
  have hlen : B1.length ≤ B.length := by
    have := congrArg List.length hsplit
    simp only [List.length_append, List.length_cons, List.length_nil] at this
    omega
  have hst := rle_bytes_state B1 hB1 [] 0 (by simp)
  have h0 : rle_state_of [] 0 = ⟨[], false⟩ := rfl
  rw [h0] at hst
  simp only [List.nil_append] at hst
  obtain ⟨s1, hs1⟩ := rle_for_initial v j _ _ hj
    (rle_byte_state v hv (gaps_from 0 (buffer_bits B1)) (pending_from 0 (buffer_bits B1)))
  refine ⟨s1, by simp only [rle_state_within, hst, hs1], ?_⟩
  have h4 := rle_lookup_size_le v hv
  have hcells := rle_state_of_cells (gaps_from 0 (buffer_bits B1))
    (pending_from 0 (buffer_bits B1)) (8 * B1.length)
    (by
      intro e he
      have := gaps_from_le 0 (buffer_bits B1) e he
      rw [buffer_bits_length] at this
      omega)
    (by
      have := pending_from_le 0 (buffer_bits B1)
      rw [buffer_bits_length] at this
      omega)
  have h1 := rle_for_cells v (8 * B1.length) (List.range j) _ s1 hv
    (by
      intro i hi
      have := List.mem_range.mp hi
      omega) hs1 hcells
  intro e he
  have := h1 e he
  simp only [List.length_range] at this
  omega

/-- While the bits of the gaps fit into the `4 * (10 * MAX_INPUT_SIZE)` bytes of
`rle_buf`, every iteration of the decoder keeps `currindex + in[i]` below
`2 ^ 31` and stores into a byte of `rle_buf`. -/
theorem rld_loop_in_range (stale : Nat → Nat) (g g1 g2 : List Nat) (x : Nat)
    (hsplit : g = g1 ++ x :: g2) (hfit : g.sum ≤ 8 * (4 * (10 * MAX_INPUT_SIZE))) :
    (rld_loop stale g1).currindex + x < 2 ^ 31 ∧
      (rld_step (rld_loop stale g1) x).bytecounter - 1 < 4 * (10 * MAX_INPUT_SIZE) := by
  have hat := rld_foldl_at g1 _ 0 (rld_start stale)
  have hat1 := rld_step_at _ _ x hat
  have hsum : g.sum = g1.sum + (x + g2.sum) := by
    rw [hsplit, List.sum_append, List.sum_cons]
  obtain ⟨h1, -⟩ := hat
  obtain ⟨-, h2⟩ := hat1
  unfold MAX_INPUT_SIZE at hfit ⊢
  unfold rld_loop
  constructor <;> omega

/-! ## The claims -/

/-- C1, at the two-byte buffer `00 01`. -/
theorem run_length_round_trip_witness :
    (∀ x ∈ [0, 1], x < 256) ∧ 1 ≤ [0, 1].length ∧ [0, 1].length ≤ MAX_INPUT_SIZE ∧
      ∃ g, get_run_length_encoding [0, 1] = .ok g ∧
        get_run_length_decoding (fun _ => 255) g = ([0, 1], [0, 1].length) :=
  ⟨by decide, by decide, by decide,
    run_length_round_trip (fun _ => 255) [0, 1] (by decide) (by decide) (by decide)⟩

/-- C4, at the buffer `{1, 5, 4, 5}` of the test program, whose gaps are
8, 6, 2, 6, 8, 2 and eight times 1. -/
theorem run_length_encoding_gaps_witness :
    (∀ x ∈ [1, 5, 4, 5], x < 256) ∧ [1, 5, 4, 5].length ≤ MAX_INPUT_SIZE ∧
      get_run_length_encoding [1, 5, 4, 5] = .ok [8, 6, 2, 6, 8, 2, 1, 1, 1, 1, 1, 1, 1, 1] ∧
      ∃ g, get_run_length_encoding [1, 5, 4, 5] = .ok g ∧
        prefix_sums 0 g =
          set_bit_positions 0 (buffer_bits [1, 5, 4, 5] ++ List.replicate 8 true) :=
  ⟨by decide, by decide, by decide,
    run_length_encoding_gaps [1, 5, 4, 5] (by decide) (by decide)⟩

/-- C5 (as stated) fails: the first gap returned for the bytes `00 01` is not 9. -/
theorem splice_zero_one_not_nine :
    ¬ ∃ g, get_run_length_encoding [0x00, 0x01] = .ok g ∧ g.head? = some 9 := by
  rintro ⟨g, hg, h9⟩
  have h : get_run_length_encoding [0x00, 0x01] = .ok [16, 1, 1, 1, 1, 1, 1, 1, 1] := by decide
  rw [h] at hg
  injection hg with hg
  subst hg
  simp at h9

/-- C5 (as amended): for the bytes `00 01` the zero run that crosses the byte
boundary is merged into one gap of length 16, the first entry of the output;
the eight entries behind it are the gaps 1 of the byte of all ones. -/
theorem splice_zero_one :
    get_run_length_encoding [0x00, 0x01] = .ok [16, 1, 1, 1, 1, 1, 1, 1, 1] := by decide

set_option maxRecDepth 100000 in
/-- C6: for every byte value the valid entries of its row of `rle_lookup` sum
to 8. -/
theorem rle_lookup_sum (v : Nat) (hv : v < 256) :
    ((rle_lookup.getD v []).take (rle_lookup_sizes.getD v 0)).sum = 8 := by
  revert v
  decide

/-- C6, at the byte value 4. -/
theorem rle_lookup_sum_witness :
    (4 < 256) ∧ ((rle_lookup.getD 4 []).take (rle_lookup_sizes.getD 4 0)).sum = 8 :=
  ⟨by decide, rle_lookup_sum 4 (by decide)⟩

set_option maxRecDepth 100000 in
/-- C7: the valid entries of a row of `rle_lookup` contain a 0 exactly when the
lowest bit of the byte value is 0, and then the 0 is the last entry and the
only one. -/
theorem rle_lookup_zero_marker (v : Nat) (hv : v < 256) :
    (0 ∈ (rle_lookup.getD v []).take (rle_lookup_sizes.getD v 0) ↔ v % 2 = 0) ∧
      (0 ∈ (rle_lookup.getD v []).take (rle_lookup_sizes.getD v 0) →
        ((rle_lookup.getD v []).take (rle_lookup_sizes.getD v 0)).getLast? = some 0 ∧
        ((rle_lookup.getD v []).take (rle_lookup_sizes.getD v 0)).count 0 = 1) := by
  revert v
  decide

/-- C7, at the byte value 4, whose row is 6, 2, 0. -/
theorem rle_lookup_zero_marker_witness :
    (4 < 256) ∧
    (0 ∈ (rle_lookup.getD 4 []).take (rle_lookup_sizes.getD 4 0) ↔ 4 % 2 = 0) ∧
      (0 ∈ (rle_lookup.getD 4 []).take (rle_lookup_sizes.getD 4 0) →
        ((rle_lookup.getD 4 []).take (rle_lookup_sizes.getD 4 0)).getLast? = some 0 ∧
        ((rle_lookup.getD 4 []).take (rle_lookup_sizes.getD 4 0)).count 0 = 1) :=
  ⟨by decide, rle_lookup_zero_marker 4 (by decide)⟩

set_option maxRecDepth 100000 in
/-- C2 fails on the one-byte buffer `FE`: one of its eight bits is zero, so the
zero fraction is 1/8 and the parameter is `b = 1` (the least `b` with
`(1/8)^b ≤ 1/2`).  `golomb_encode` returns the two bytes `01 00`, and
`golomb_decode` on these two bytes with `b = 1` returns the one byte `EF`. -/
theorem golomb_round_trip_dense (stale1 stale2 : Nat → Nat) :
    zero_bits [0xFE] = 1 ∧ 2 * 1 ^ 1 ≤ 8 ^ 1 ∧
      golomb_encode stale1 1 [0xFE] = .ok [0x01, 0x00] ∧
      golomb_decode stale2 [0x01, 0x00] 2 1 = .ok ([0xEF], 1) := by
  refine ⟨by decide, by decide, ?_, ?_⟩
  · exact golomb_encode_stale stale1 (fun _ => 0) 1 [0xFE] _ (by decide) (by decide)
  · exact golomb_decode_stale stale2 (fun _ => 0) _ 2 1 _ (by decide) (by decide)

/-- C3 fails for `b = 1`: the encoder writes the gap 1 as the single bit 0, and
the decoder, run on that bit followed by further bits, consumes two bits; when
the next bit is 1 it returns the gap 2. -/
theorem golomb_symbol_unary_mismatch (stale : Nat → Nat) :
    (∃ s1, golomb_encode_symbol 1 (to_unsigned (ceil_log2 1)) ⟨memset_scratch stale, 0, 0⟩ 1
        = .ok s1 ∧ put_pos s1 = 1 ∧ s1.buf 0 = 0) ∧
      golomb_decode_symbol [0x40] 1 (to_unsigned (ceil_log2 1)) ⟨0, 0⟩ = .ok (2, ⟨0, 2⟩) ∧
      golomb_decode_symbol [0x00] 1 (to_unsigned (ceil_log2 1)) ⟨0, 0⟩ = .ok (1, ⟨0, 2⟩) := by
  refine ⟨⟨_, rfl, rfl, rfl⟩, by decide, by decide⟩

set_option maxRecDepth 100000 in
/-- C8: the buffer `{1, 5, 4, 5}` has 26 zero bits among 32, its parameter is
`b = 4` (the least `b` with `(26/32)^b ≤ 1/2`), `golomb_encode` returns five
bytes, and `golomb_decode` on these five bytes with `b = 4` returns the four
bytes `{1, 5, 4, 5}`. -/
theorem golomb_round_trip_example (stale1 stale2 : Nat → Nat) :
    zero_bits [1, 5, 4, 5] = 26 ∧ [1, 5, 4, 5].length * 8 = 32 ∧
      2 * 26 ^ 4 ≤ 32 ^ 4 ∧ 32 ^ 3 < 2 * 26 ^ 3 ∧
      golomb_encode stale1 4 [1, 5, 4, 5] = .ok [185, 51, 100, 0, 0] ∧
      golomb_decode stale2 [185, 51, 100, 0, 0] 5 4 = .ok ([1, 5, 4, 5], 4) := by
  refine ⟨by decide, by decide, by decide, by decide, ?_, ?_⟩
  · exact golomb_encode_stale stale1 (fun _ => 0) 4 [1, 5, 4, 5] _ (by decide) (by decide)
  · exact golomb_decode_stale stale2 (fun _ => 0) _ 5 4 _ (by decide) (by decide)

/-- C10 fails on the one-byte buffer `FF`: it has no zero bit, the parameter
computed from the zero fraction 0 is `b = 0`, and the first iteration of the
main loop of `golomb_encode` divides by `b`. -/
theorem golomb_encode_all_ones (stale : Nat → Nat) :
    zero_bits [0xFF] = 0 ∧ golomb_encode stale 0 [0xFF] = .error .division_by_zero :=
  ⟨by decide, golomb_encode_zero_param stale [0xFF] (by decide)⟩

/-! ## The claims, second part -/

/-- C11 (as amended): `get_run_length_encoding` and, for every `b ≥ 1`,
`golomb_encode` return a result on an input of exactly `MAX_INPUT_SIZE` bytes,
and equally on an input of `MAX_INPUT_SIZE + 1` bytes: no input length is
rejected.  The number of gaps stays below the `10 * MAX_INPUT_SIZE` cells of
`rle_buf`. -/
theorem input_size_boundary (stale : Nat → Nat) (b : Nat) (B : List Nat) (hb : 1 ≤ b)
    (hB : ∀ x ∈ B, x < 256)
    (hlen : B.length = MAX_INPUT_SIZE ∨ B.length = MAX_INPUT_SIZE + 1) :
    ∃ g P, get_run_length_encoding B = .ok g ∧ g.length < 10 * MAX_INPUT_SIZE ∧
      golomb_encode stale b B = .ok P := by
  obtain ⟨g, P, hg, hl, hP⟩ := encoders_succeed stale b B hb hB
  refine ⟨g, P, hg, ?_, hP⟩
  unfold MAX_INPUT_SIZE at hlen ⊢
  omega

/-- C11 (as amended), at the buffer of 131073 bytes `01` with `b = 6`. -/
theorem input_size_boundary_witness :
    1 ≤ 6 ∧ (∀ x ∈ List.replicate 131073 1, x < 256) ∧
      ((List.replicate 131073 1).length = MAX_INPUT_SIZE ∨
        (List.replicate 131073 1).length = MAX_INPUT_SIZE + 1) ∧
      ∃ g P, get_run_length_encoding (List.replicate 131073 1) = .ok g ∧
        g.length < 10 * MAX_INPUT_SIZE ∧
        golomb_encode (fun _ => 0) 6 (List.replicate 131073 1) = .ok P :=
  ⟨by decide, replicate_lt_256 _ 1 (by decide), Or.inr (List.length_replicate _ _),
    input_size_boundary (fun _ => 0) 6 (List.replicate 131073 1) (by decide)
      (replicate_lt_256 _ 1 (by decide)) (Or.inr (List.length_replicate _ _))⟩

/-- C11 (as stated) fails: an input of 131073 bytes is not rejected.  For
131073 zero bytes `get_run_length_encoding` returns the gap 1048585 and seven
gaps 1, and for 131073 bytes `01` (zero fraction 7/8, parameter `b = 6`)
`golomb_encode` returns packed bytes. -/
theorem oversize_input_accepted :
    get_run_length_encoding (List.replicate (MAX_INPUT_SIZE + 1) 0) =
        .ok (1048585 :: List.replicate 7 1) ∧
      ∃ P, golomb_encode (fun _ => 0) 6 (List.replicate (MAX_INPUT_SIZE + 1) 1) = .ok P := by
  refine ⟨get_run_length_encoding_zeros _, ?_⟩
  obtain ⟨g, P, -, -, hP⟩ := encoders_succeed (fun _ => 0) 6
    (List.replicate (MAX_INPUT_SIZE + 1) 1) (by norm_num) (replicate_lt_256 _ 1 (by norm_num))
  exact ⟨P, hP⟩

set_option maxRecDepth 100000 in
/-- C12 fails on the three packed bytes `56 00 00` with `b = 6` (they are what
`golomb_encode` returns for the one-byte buffer `10`, whose zero fraction 7/8
gives `b = 6`): the last symbol starts at bit 23 and `golomb_decode` goes on
reading at bit 24.  When no byte is readable there the read leaves the input
memory; when the byte `FF` follows, two bytes `10 FC` are returned, and when the
byte `00` follows, the one byte `10`. -/
theorem golomb_decode_reads_past_end (stale : Nat → Nat) :
    zero_bits [0x10] = 7 ∧ 2 * 7 ^ 6 ≤ 8 ^ 6 ∧ 8 ^ 5 < 2 * 7 ^ 5 ∧
      golomb_encode stale 6 [0x10] = .ok [0x56, 0x00, 0x00] ∧
      golomb_decode stale [0x56, 0x00, 0x00] 3 6 = .error .read_past_end ∧
      golomb_decode stale [0x56, 0x00, 0x00, 0xFF] 3 6 = .ok ([0x10, 0xFC], 2) ∧
      golomb_decode stale [0x56, 0x00, 0x00, 0x00] 3 6 = .ok ([0x10], 1) := by
  refine ⟨by decide, by decide, by decide, ?_, ?_, ?_, ?_⟩
  · exact golomb_encode_stale stale (fun _ => 0) 6 [0x10] _ (by decide) (by decide)
  · have h : golomb_decode_gaps [0x56, 0x00, 0x00] 3 6 = .error .read_past_end := by decide
    simp only [golomb_decode, h]
  · exact golomb_decode_stale stale (fun _ => 0) _ 3 6 _ (by decide) (by decide)
  · exact golomb_decode_stale stale (fun _ => 0) _ 3 6 _ (by decide) (by decide)

/-- C13 (as stated) fails: for the empty gap sequence, when `malloc (0)` yields
a non-null pointer, `get_run_length_decoding` returns 0 and a buffer of length
0. -/
theorem run_length_decoding_empty_succeeds :
    get_run_length_decoding_status (fun _ => false) (fun _ => 0) [] = 0 ∧
      get_run_length_decoding (fun _ => 0) [] = ([], 0) := by
  decide

/-- C13 (as amended): `get_run_length_decoding` has no check for an empty gap
sequence; for count 0 it sets `*outsize = 0` and its result is that of
`malloc (0)`: failure exactly when the allocation yields a null pointer, and
otherwise success with a buffer of length 0. -/
theorem run_length_decoding_empty (malloc_null : Nat → Bool) (stale : Nat → Nat) :
    get_run_length_decoding stale [] = ([], 0) ∧
      (get_run_length_decoding_status malloc_null stale [] = 1 ↔ malloc_null 0 = true) ∧
      (get_run_length_decoding_status malloc_null stale [] = 0 ↔ malloc_null 0 = false) := by
  have h : get_run_length_decoding stale [] = ([], 0) := rfl
  refine ⟨h, ?_, ?_⟩ <;> cases hm : malloc_null 0 <;>
    simp [get_run_length_decoding_status, h, hm]

/-- C14: for `b = 2 ^ k` with `1 ≤ k ≤ 30` (so that `b` is an `int`) the width
`log2_b` is `k` and `d = 0`; for every gap `v ≥ 1` the iteration of
`golomb_encode`, with its cursor inside a byte, writes `q` one-bits, a zero
bit and the `k` bits of `r - 1`, which read as a binary number give `r - 1`:
`q + 1 + k` bits in all. -/
theorem golomb_power_of_two (k v : Nat) (s : PutState) (_hk1 : 1 ≤ k) (hk2 : k ≤ 30)
    (hv : 1 ≤ v) (hs : s.currindex < 8) :
    to_unsigned (ceil_log2 (2 ^ k)) = k ∧
      ((1 <<< to_unsigned (ceil_log2 (2 ^ k)) : Nat) : Int) - ((2 ^ k : Nat) : Int) = 0 ∧
      ∃ s1, golomb_encode_symbol (2 ^ k) (to_unsigned (ceil_log2 (2 ^ k))) s v = .ok s1 ∧
        emits s s1 (List.replicate (golomb_quotient (2 ^ k) v) true ++
          false :: int_bits (golomb_remainder (2 ^ k) v - 1) k) ∧
        bits_value 0 (int_bits (golomb_remainder (2 ^ k) v - 1) k) =
          golomb_remainder (2 ^ k) v - 1 ∧
        put_pos s1 = put_pos s + (golomb_quotient (2 ^ k) v + 1 + k) := by
  have hpos : 1 ≤ 2 ^ k := Nat.one_le_two_pow
  have hlog := log2_b_two_pow k hk2
  obtain ⟨hr1, hr2⟩ := golomb_remainder_range (2 ^ k) v hpos hv
  obtain ⟨s1, hs1, hem⟩ := golomb_encode_symbol_emits (2 ^ k) k v s hpos hs
  have hcw : codeword_bits (2 ^ k) k v = List.replicate (golomb_quotient (2 ^ k) v) true ++
      false :: int_bits (golomb_remainder (2 ^ k) v - 1) k := by
    unfold codeword_bits golomb_remainder golomb_quotient
    simp only [Nat.one_shiftLeft, sub_self, add_zero]
    rw [if_pos (by omega)]
  rw [hlog]
  refine ⟨rfl, by rw [Nat.one_shiftLeft]; omega, s1, hs1, hcw ▸ hem, ?_, ?_⟩
  · exact bits_value_int_bits _ k (by unfold golomb_remainder golomb_quotient; omega)
      (by unfold golomb_remainder golomb_quotient; omega)
  · rw [hem.1, hcw]
    simp only [List.length_append, List.length_replicate, List.length_cons, int_bits_length]
    omega

/-- C14, at `b = 4` and the gap 8: the code word of 8 is `1 0 1 1`, two bits
for the remainder. -/
theorem golomb_power_of_two_witness :
    1 ≤ 2 ∧ 2 ≤ 30 ∧ 1 ≤ 8 ∧ (0 : Nat) < 8 ∧
      codeword_bits 4 2 8 = [true, false, true, true] ∧
      (to_unsigned (ceil_log2 (2 ^ 2)) = 2 ∧
      ((1 <<< to_unsigned (ceil_log2 (2 ^ 2)) : Nat) : Int) - ((2 ^ 2 : Nat) : Int) = 0 ∧
      ∃ s1, golomb_encode_symbol (2 ^ 2) (to_unsigned (ceil_log2 (2 ^ 2)))
          ⟨fun _ => 0, 0, 0⟩ 8 = .ok s1 ∧
        emits ⟨fun _ => 0, 0, 0⟩ s1 (List.replicate (golomb_quotient (2 ^ 2) 8) true ++
          false :: int_bits (golomb_remainder (2 ^ 2) 8 - 1) 2) ∧
        bits_value 0 (int_bits (golomb_remainder (2 ^ 2) 8 - 1) 2) =
          golomb_remainder (2 ^ 2) 8 - 1 ∧
        put_pos s1 = put_pos ⟨fun _ => 0, 0, 0⟩ + (golomb_quotient (2 ^ 2) 8 + 1 + 2)) :=
  ⟨by decide, by decide, by decide, by decide, by decide,
    golomb_power_of_two 2 8 ⟨fun _ => 0, 0, 0⟩ (by decide) (by decide) (by decide) (by decide)⟩

/-- C15: for a buffer of `n` zero bytes, `1 ≤ n ≤ MAX_INPUT_SIZE`,
`get_run_length_encoding` returns the gap `8 * n + 1` followed by seven
gaps 1. -/
theorem run_length_encoding_zero_buffer (n : Nat) (_hn : 1 ≤ n) (_hmax : n ≤ MAX_INPUT_SIZE) :
    get_run_length_encoding (List.replicate n 0) = .ok ((8 * n + 1) :: List.replicate 7 1) :=
  get_run_length_encoding_zeros n

/-- C15, at the buffer of two zero bytes. -/
theorem run_length_encoding_zero_buffer_witness :
    1 ≤ 2 ∧ 2 ≤ MAX_INPUT_SIZE ∧ get_run_length_encoding (List.replicate 2 0) =
      .ok ((8 * 2 + 1) :: List.replicate 7 1) :=
  ⟨by decide, by decide, run_length_encoding_zero_buffer 2 (by decide) (by decide)⟩

/-- C17: for a gap `v ≥ 1` and `b ≥ 1` the quotient and the remainder that an
iteration of the main loop of `golomb_encode` computes satisfy `1 ≤ r ≤ b` and
`v = q * b + r`; the iteration writes `q` one-bits, the zero bit and the code
of `r`. -/
theorem golomb_quotient_remainder (b v : Nat) (hb : 1 ≤ b) (hv : 1 ≤ v) :
    1 ≤ golomb_remainder b v ∧ golomb_remainder b v ≤ b ∧
      (v : Int) = (golomb_quotient b v : Int) * (b : Int) + golomb_remainder b v ∧
      ∀ (log2_b : Nat) (s : PutState), golomb_encode_symbol b log2_b s v =
        .ok (if golomb_remainder b v > ((1 <<< log2_b : Nat) : Int) - (b : Int) then
            PUT_ONE_INTEGER (golomb_remainder b v - 1 + (((1 <<< log2_b : Nat) : Int) - (b : Int)))
              log2_b (put_next (put_unary (golomb_quotient b v) s))
          else
            PUT_ONE_INTEGER (golomb_remainder b v - 1) (log2_b - 1)
              (put_next (put_unary (golomb_quotient b v) s))) := by
  obtain ⟨h1, h2⟩ := golomb_remainder_range b v hb hv
  refine ⟨h1, h2, by unfold golomb_remainder; omega, ?_⟩
  intro log2_b s
  have hb0 : b ≠ 0 := by omega
  unfold golomb_encode_symbol golomb_remainder golomb_quotient
  simp only [hb0, if_false]
  split <;> rfl

/-- C17, at the gap 8 and `b = 4`, for which `q = 1` and `r = 4`. -/
theorem golomb_quotient_remainder_witness :
    1 ≤ 4 ∧ 1 ≤ 8 ∧ golomb_quotient 4 8 = 1 ∧ golomb_remainder 4 8 = 4 ∧
      (1 ≤ golomb_remainder 4 8 ∧ golomb_remainder 4 8 ≤ (4 : Nat) ∧
      ((8 : Nat) : Int) = (golomb_quotient 4 8 : Int) * ((4 : Nat) : Int) + golomb_remainder 4 8 ∧
      ∀ (log2_b : Nat) (s : PutState), golomb_encode_symbol 4 log2_b s 8 =
        .ok (if golomb_remainder 4 8 > ((1 <<< log2_b : Nat) : Int) - ((4 : Nat) : Int) then
            PUT_ONE_INTEGER (golomb_remainder 4 8 - 1 + (((1 <<< log2_b : Nat) : Int) - ((4 : Nat) : Int)))
              log2_b (put_next (put_unary (golomb_quotient 4 8) s))
          else
            PUT_ONE_INTEGER (golomb_remainder 4 8 - 1) (log2_b - 1)
              (put_next (put_unary (golomb_quotient 4 8) s)))) :=
  ⟨by decide, by decide, by decide, by decide, golomb_quotient_remainder 4 8 (by decide) (by decide)⟩

set_option maxRecDepth 100000 in
/-- C18: for every byte value the valid entries of its row of `rle_lookup` are
the direct decomposition of the byte into runs. -/
theorem rle_lookup_decomposition (v : Nat) (hv : v < 256) :
    (rle_lookup.getD v []).take (rle_lookup_sizes.getD v 0) = byte_runs v := by
  revert v
  decide

/-- C18, at the byte values 4 and 5, whose rows are 6, 2, 0 and 6, 2. -/
theorem rle_lookup_decomposition_witness :
    4 < 256 ∧ byte_runs 4 = [6, 2, 0] ∧ byte_runs 5 = [6, 2] ∧
      (rle_lookup.getD 4 []).take (rle_lookup_sizes.getD 4 0) = byte_runs 4 :=
  ⟨by decide, by decide, by decide, rle_lookup_decomposition 4 (by decide)⟩

/-- C19: for `1 ≤ b < 2 ^ 31` (`b` is an `int`) and gaps that are all at least
1, the main loop of `golomb_encode`, started on the buffer as `memset` left it,
writes the code words of the gaps one behind the other: its cursor ends behind
their bits, every set bit of the code is or-ed into the buffer at its position
and nothing else changes, so that the cleared part of the buffer holds the
code. -/
theorem golomb_encode_loop_code (stale : Nat → Nat) (b : Nat) (g : List Nat) (hb : 1 ≤ b)
    (hint : b < 2 ^ 31) (hg : ∀ v ∈ g, 1 ≤ v) :
    ∃ s1, golomb_encode_loop b (to_unsigned (ceil_log2 b)) g ⟨memset_scratch stale, 0, 0⟩ =
        .ok s1 ∧
      put_pos s1 = (spec_code b g).length ∧
      (∀ p, bit_at s1.buf p =
        (bit_at (memset_scratch stale) p || (spec_code b g).getD p false)) ∧
      (∀ p, p < 8 * (4 * MAX_INPUT_SIZE) → bit_at s1.buf p = (spec_code b g).getD p false) := by
  obtain ⟨s1, hs1, hpos, -, hbits⟩ := golomb_encode_loop_emits b (to_unsigned (ceil_log2 b)) g
    ⟨memset_scratch stale, 0, 0⟩ hb (by simp)
  rw [code_bits_eq_spec b g hb hint hg] at hpos hbits
  have hall : ∀ p, bit_at s1.buf p =
      (bit_at (memset_scratch stale) p || (spec_code b g).getD p false) := by
    intro p
    rw [hbits p]
    simp [put_pos]
  refine ⟨s1, hs1, by simpa [put_pos] using hpos, hall, ?_⟩
  intro p hp
  rw [hall p, bit_at_memset_scratch stale p hp, Bool.false_or]

/-- C19, at `b = 3` (`k = 2`, `d = 1`) and the gaps 1, 2, 3, 4, whose code
words are `0 0`, `0 1 0`, `0 1 1` and `1 0 0`. -/
theorem golomb_encode_loop_code_witness :
    1 ≤ 3 ∧ 3 < 2 ^ 31 ∧ (∀ v ∈ [1, 2, 3, 4], 1 ≤ v) ∧
      spec_code 3 [1, 2, 3, 4] =
        [false, false, false, true, false, false, true, true, true, false, false] ∧
      ∃ s1, golomb_encode_loop 3 (to_unsigned (ceil_log2 3)) [1, 2, 3, 4]
          ⟨memset_scratch (fun _ => 1), 0, 0⟩ = .ok s1 ∧
        put_pos s1 = (spec_code 3 [1, 2, 3, 4]).length ∧
        (∀ p, bit_at s1.buf p =
          (bit_at (memset_scratch (fun _ => 1)) p || (spec_code 3 [1, 2, 3, 4]).getD p false)) ∧
        (∀ p, p < 8 * (4 * MAX_INPUT_SIZE) →
          bit_at s1.buf p = (spec_code 3 [1, 2, 3, 4]).getD p false) :=
  ⟨by decide, by decide, by decide, by decide,
    golomb_encode_loop_code (fun _ => 1) 3 [1, 2, 3, 4] (by decide) (by decide) (by decide)⟩

/-- C20 (as stated) fails when the output is longer than the part of `rle_buf`
that the function clears.  Let the old content of `rle_buf` be gaps 1 stored as
4-byte `unsigned int` with the low byte first, as an earlier call of
`get_run_length_encoding` leaves them.  For the single gap 4194313 the output
has 524289 bytes, and its bit 4194312 (the last bit of the byte at index
524288) is set, though the only running sum is 4194313. -/
theorem run_length_decoding_stale_bit :
    (∀ x ∈ [4194313], 1 ≤ x) ∧
      (get_run_length_decoding (fun a => if a % 4 = 0 then 1 else 0) [4194313]).2 = 524289 ∧
      (1 ≤ 4194312 ∧ 4194312 ≤ 8 * (get_run_length_decoding (fun a => if a % 4 = 0 then 1 else 0) [4194313]).2) ∧
      output_bit (get_run_length_decoding (fun a => if a % 4 = 0 then 1 else 0) [4194313]).1 4194312 = true ∧
      4194312 ∉ prefix_sums 0 [4194313] := by
  have hL : (get_run_length_decoding (fun a => if a % 4 = 0 then 1 else 0) [4194313]).2 = 524289 := by
    rw [get_run_length_decoding_length]
    decide
  refine ⟨by decide, hL, ⟨by decide, by rw [hL]⟩, ?_, by decide⟩
  rw [get_run_length_decoding_bit _ _ _ (by decide) (by rw [hL])]
  decide

/-- C20 (as amended): for gaps that are all at least 1 and an output of at most
`4 * MAX_INPUT_SIZE` bytes (the part of `rle_buf` that the function clears),
bit `j` of the output, `1 ≤ j ≤ 8 * L`, is set exactly when `j` is the sum of a
non-empty prefix of the gaps. -/
theorem run_length_decoding_bits (stale : Nat → Nat) (g : List Nat) (j : Nat)
    (_hg : ∀ x ∈ g, 1 ≤ x)
    (hL : (get_run_length_decoding stale g).2 ≤ 4 * MAX_INPUT_SIZE) (hj1 : 1 ≤ j)
    (hj2 : j ≤ 8 * (get_run_length_decoding stale g).2) :
    output_bit (get_run_length_decoding stale g).1 j = true ↔ j ∈ prefix_sums 0 g := by
  rw [get_run_length_decoding_bit stale g j hj1 hj2,
    memset_scratch_zero stale _ (by omega)]
  simp

/-- C20 (as amended), at the gaps 8, 6, 2, 9 and bit 14 of the three bytes
`01 05 00` that they decode to. -/
theorem run_length_decoding_bits_witness :
    (∀ x ∈ [8, 6, 2, 9], 1 ≤ x) ∧
      get_run_length_decoding (fun _ => 1) [8, 6, 2, 9] = ([1, 5, 0], 3) ∧
      (get_run_length_decoding (fun _ => 1) [8, 6, 2, 9]).2 ≤ 4 * MAX_INPUT_SIZE ∧
      1 ≤ 14 ∧ 14 ≤ 8 * (get_run_length_decoding (fun _ => 1) [8, 6, 2, 9]).2 ∧
      (output_bit (get_run_length_decoding (fun _ => 1) [8, 6, 2, 9]).1 14 = true ↔
        14 ∈ prefix_sums 0 [8, 6, 2, 9]) :=
  ⟨by decide, by decide, by decide, by decide, by decide,
    run_length_decoding_bits (fun _ => 1) [8, 6, 2, 9] 14 (by decide) (by decide) (by decide)
      (by decide)⟩

/-! ## The claims, third part -/

/-- C21: for every gap sequence `g` whose bits fit into `rle_buf`, that is
with a sum `S` of at most 8 times its `4 * (10 * MAX_INPUT_SIZE)` bytes, the
length that `get_run_length_decoding` returns is `(S - 1) / 8` when `S ≥ 1` and
0 when `S = 0`; it is the number of bytes returned, and it is the index
`bytecounter - 1` of the byte that `currbyte` points at when the loop ends, a
byte of `rle_buf` that is not among the bytes returned. -/
theorem decoded_length_last_byte (stale : Nat → Nat) (g : List Nat)
    (hfit : g.sum ≤ 8 * (4 * (10 * MAX_INPUT_SIZE))) :
    (get_run_length_decoding stale g).2 = (if g.sum = 0 then 0 else (g.sum - 1) / 8) ∧
      (get_run_length_decoding stale g).1.length = (get_run_length_decoding stale g).2 ∧
      (rld_loop stale g).bytecounter - 1 = (get_run_length_decoding stale g).2 ∧
      (get_run_length_decoding stale g).2 < 4 * (10 * MAX_INPUT_SIZE) := by
  have hlen := get_run_length_decoding_length stale g
  refine ⟨?_, ?_, ?_, ?_⟩
  · rw [hlen]
    split
    · omega
    · rfl
  · simp [get_run_length_decoding]
  · simp [get_run_length_decoding]
  · rw [hlen]
    unfold MAX_INPUT_SIZE at hfit ⊢
    omega

/-- C21, at the gaps 3, 6, 8 with the sum 17: two bytes are returned, and the
bit at position 17 is in the third byte, which is not returned. -/
theorem decoded_length_last_byte_witness :
    [3, 6, 8].sum ≤ 8 * (4 * (10 * MAX_INPUT_SIZE)) ∧
      get_run_length_decoding (fun _ => 0) [3, 6, 8] = ([0x20, 0x80], 2) ∧
      (rld_loop (fun _ => 0) [3, 6, 8]).buf 2 = 0x80 ∧
      ((get_run_length_decoding (fun _ => 0) [3, 6, 8]).2 =
          (if [3, 6, 8].sum = 0 then 0 else ([3, 6, 8].sum - 1) / 8) ∧
        (get_run_length_decoding (fun _ => 0) [3, 6, 8]).1.length =
          (get_run_length_decoding (fun _ => 0) [3, 6, 8]).2 ∧
        (rld_loop (fun _ => 0) [3, 6, 8]).bytecounter - 1 =
          (get_run_length_decoding (fun _ => 0) [3, 6, 8]).2 ∧
        (get_run_length_decoding (fun _ => 0) [3, 6, 8]).2 < 4 * (10 * MAX_INPUT_SIZE)) :=
  ⟨by decide, by decide, by decide, decoded_length_last_byte (fun _ => 0) [3, 6, 8] (by decide)⟩

/-- C22: for every `b ≥ 1` the function `ceil_log2` returns the least `k ≥ 0`
with `b ≤ 2 ^ k`, which is the number `ceil_log2_exact b`. -/
theorem ceil_log2_least (b : Nat) (hb : 1 ≤ b) :
    ∃ k : Nat, ceil_log2 b = (k : Int) ∧ b ≤ 2 ^ k ∧ (∀ j : Nat, b ≤ 2 ^ j → k ≤ j) ∧
      k = ceil_log2_exact b := by
  obtain ⟨k, hk, h1, h2⟩ := ceil_log2_spec b hb
  have hmin : ∀ j : Nat, b ≤ 2 ^ j → k ≤ j := by
    intro j hj
    rcases h2 with h2 | h2
    · omega
    · have h3 : 2 ^ (k - 1) < 2 ^ j := Nat.lt_of_lt_of_le h2 hj
      have := (Nat.pow_lt_pow_iff_right (by norm_num)).mp h3
      omega
  refine ⟨k, hk, h1, hmin, ?_⟩
  have he := ceil_log2_exact_spec b
  have := he.2 k h1
  have := hmin _ he.1
  omega

/-- C22, at `b = 5`, with the values of `ceil_log2` at 1, 4 and 5. -/
theorem ceil_log2_least_witness :
    1 ≤ 5 ∧ ceil_log2 1 = 0 ∧ ceil_log2 4 = 2 ∧ ceil_log2 5 = 3 ∧
      ∃ k : Nat, ceil_log2 5 = (k : Int) ∧ 5 ≤ 2 ^ k ∧ (∀ j : Nat, 5 ≤ 2 ^ j → k ≤ j) ∧
        k = ceil_log2_exact 5 :=
  ⟨by decide, by decide, by decide, by decide, ceil_log2_least 5 (by decide)⟩

/-- C23: for every byte buffer of at most `MAX_INPUT_SIZE` bytes, every entry
of the gap sequence that `get_run_length_encoding` returns is at least 1, so
the marker 0 is not among them; the sequence ends with seven entries 1, and its
last entry is 1. -/
theorem run_length_encoding_entries (B : List Nat) (hB : ∀ x ∈ B, x < 256)
    (_hn : B.length ≤ MAX_INPUT_SIZE) :
    ∃ g pre, get_run_length_encoding B = .ok g ∧ (∀ x ∈ g, 1 ≤ x) ∧ 0 ∉ g ∧
      g = pre ++ List.replicate 7 1 ∧ g.getLast? = some 1 := by
  have hg := get_run_length_encoding_eq B hB
  have hs := gaps_from_sentinel 0 (buffer_bits B)
  have hpos := gaps_from_pos 0 (buffer_bits B ++ List.replicate 8 true)
  refine ⟨_, _, hg, hpos, ?_, hs, ?_⟩
  · intro h0
    have := hpos 0 h0
    omega
  · rw [hs]
    simp [List.replicate_succ]

/-- C23, at the buffer `{0x00, 0x80}`, whose first byte leaves the marker 0
behind and whose gap sequence is 9 followed by eight times 8 and 1. -/
theorem run_length_encoding_entries_witness :
    (∀ x ∈ [0x00, 0x80], x < 256) ∧ [0x00, 0x80].length ≤ MAX_INPUT_SIZE ∧
      rle_state_within [] 0x00 2 = .ok ⟨[8, 0], false⟩ ∧
      get_run_length_encoding [0x00, 0x80] = .ok [9, 8, 1, 1, 1, 1, 1, 1, 1] ∧
      ∃ g pre, get_run_length_encoding [0x00, 0x80] = .ok g ∧ (∀ x ∈ g, 1 ≤ x) ∧ 0 ∉ g ∧
        g = pre ++ List.replicate 7 1 ∧ g.getLast? = some 1 :=
  ⟨by decide, by decide, by decide, by decide,
    run_length_encoding_entries [0x00, 0x80] (by decide) (by decide)⟩

/-- C24: for every byte buffer of `n ≤ MAX_INPUT_SIZE` bytes, the entries of
the gap sequence that `get_run_length_encoding` returns sum to
`8 * (n + 1)`. -/
theorem run_length_encoding_sum (B : List Nat) (hB : ∀ x ∈ B, x < 256)
    (_hn : B.length ≤ MAX_INPUT_SIZE) :
    ∃ g, get_run_length_encoding B = .ok g ∧ g.sum = 8 * (B.length + 1) := by
  refine ⟨_, get_run_length_encoding_eq B hB, ?_⟩
  have h := gaps_from_sum 0 (buffer_bits B ++ List.replicate 8 true)
  rw [pending_from_append_true 0 (buffer_bits B) 7] at h
  simp only [List.length_append, buffer_bits_length, List.length_replicate] at h
  omega

/-- C24, at the buffer `{1, 5, 4, 5}`, whose gaps sum to 40. -/
theorem run_length_encoding_sum_witness :
    (∀ x ∈ [1, 5, 4, 5], x < 256) ∧ [1, 5, 4, 5].length ≤ MAX_INPUT_SIZE ∧
      get_run_length_encoding [1, 5, 4, 5] =
        .ok [8, 6, 2, 6, 8, 2, 1, 1, 1, 1, 1, 1, 1, 1] ∧
      ∃ g, get_run_length_encoding [1, 5, 4, 5] = .ok g ∧ g.sum = 8 * ([1, 5, 4, 5].length + 1) :=
  ⟨by decide, by decide, by decide,
    run_length_encoding_sum [1, 5, 4, 5] (by decide) (by decide)⟩

/-- C27: for every `b` with `1 ≤ b < 2 ^ 31` (`b` is an `int`), with `k` the
value of `ceil_log2 b` (also as the `unsigned int log2_b`) and
`d = 2 ^ k - b`, and for every `r` with `1 ≤ r ≤ b`: `d ≥ 0`; when `r > d`, the
value `r - 1 + d` is not negative and below `2 ^ k`, and its `k` bits give it
back; when `r ≤ d`, `k ≥ 1`, the value `r - 1` is below `2 ^ (k - 1)`, and its
`k - 1` bits give it back. -/
theorem golomb_remainder_fits (b : Nat) (r : Int) (hb : 1 ≤ b) (hint : b < 2 ^ 31)
    (hr1 : 1 ≤ r) (hr2 : r ≤ (b : Int)) :
    ∃ k : Nat, to_unsigned (ceil_log2 b) = k ∧ ceil_log2 b = (k : Int) ∧
      golomb_d b k = (2 : Int) ^ k - (b : Int) ∧ 0 ≤ golomb_d b k ∧
      (r > golomb_d b k →
        0 ≤ r - 1 + golomb_d b k ∧ r - 1 + golomb_d b k < (2 : Int) ^ k ∧
        bits_value 0 (int_bits (r - 1 + golomb_d b k) k) = r - 1 + golomb_d b k) ∧
      (r ≤ golomb_d b k →
        1 ≤ k ∧ r - 1 < (2 : Int) ^ (k - 1) ∧
        bits_value 0 (int_bits (r - 1) (k - 1)) = r - 1) := by
  obtain ⟨k, hk, h1, h2⟩ := ceil_log2_spec b hb
  have hk31 : k ≤ 31 := by
    rcases h2 with h2 | h2
    · omega
    · have h3 : 2 ^ (k - 1) < 2 ^ 31 := Nat.lt_trans h2 hint
      have := (Nat.pow_lt_pow_iff_right (by norm_num)).mp h3
      omega
  have hu : to_unsigned (ceil_log2 b) = k := by
    rw [hk]
    exact to_unsigned_natCast k (by omega)
  have hd : golomb_d b k = ((2 ^ k : Nat) : Int) - (b : Int) := by
    unfold golomb_d
    rw [Nat.shiftLeft_eq, Nat.one_mul]
  have hc : ((2 ^ k : Nat) : Int) = (2 : Int) ^ k := by push_cast; rfl
  have hc1 : ((2 ^ (k - 1) : Nat) : Int) = (2 : Int) ^ (k - 1) := by push_cast; rfl
  have h1i : (b : Int) ≤ ((2 ^ k : Nat) : Int) := by exact_mod_cast h1
  refine ⟨k, hu, hk, by rw [hd, hc], by omega, ?_, ?_⟩
  · intro hgt
    have ha : 0 ≤ r - 1 + golomb_d b k := by omega
    have hlt : r - 1 + golomb_d b k < ((2 ^ k : Nat) : Int) := by omega
    exact ⟨ha, by rw [← hc]; exact hlt, bits_value_int_bits _ k ha hlt⟩
  · intro hle
    rcases h2 with h2 | h2
    · subst h2
      simp only [pow_zero] at h1i hd
      omega
    · have hk1 : 1 ≤ k := by
        by_contra hc
        have : k = 0 := by omega
        subst this
        simp only [pow_zero] at h1i hd
        omega
      have hpow : 2 ^ k = 2 * 2 ^ (k - 1) := by
        rw [← pow_succ']
        congr 1
        omega
      have h2i : ((2 ^ (k - 1) : Nat) : Int) < (b : Int) := by exact_mod_cast h2
      have hpi : ((2 ^ k : Nat) : Int) = 2 * ((2 ^ (k - 1) : Nat) : Int) := by
        rw [hpow]
        push_cast
        ring
      have hlt : r - 1 < ((2 ^ (k - 1) : Nat) : Int) := by omega
      exact ⟨hk1, by rw [← hc1]; exact hlt, bits_value_int_bits _ (k - 1) (by omega) hlt⟩

/-- C27, at `b = 6` (`k = 3`, `d = 2`) and `r = 5`, which is written as
`r - 1 + d = 6` in the three bits `1 1 0`. -/
theorem golomb_remainder_fits_witness :
    1 ≤ 6 ∧ 6 < 2 ^ 31 ∧ (1 : Int) ≤ 5 ∧ (5 : Int) ≤ ((6 : Nat) : Int) ∧
      golomb_d 6 3 = 2 ∧ int_bits (5 - 1 + golomb_d 6 3) 3 = [true, true, false] ∧
      ∃ k : Nat, to_unsigned (ceil_log2 6) = k ∧ ceil_log2 6 = (k : Int) ∧
        golomb_d 6 k = (2 : Int) ^ k - ((6 : Nat) : Int) ∧ 0 ≤ golomb_d 6 k ∧
        ((5 : Int) > golomb_d 6 k →
          0 ≤ (5 : Int) - 1 + golomb_d 6 k ∧ (5 : Int) - 1 + golomb_d 6 k < (2 : Int) ^ k ∧
          bits_value 0 (int_bits ((5 : Int) - 1 + golomb_d 6 k) k) =
            (5 : Int) - 1 + golomb_d 6 k) ∧
        ((5 : Int) ≤ golomb_d 6 k →
          1 ≤ k ∧ (5 : Int) - 1 < (2 : Int) ^ (k - 1) ∧
          bits_value 0 (int_bits ((5 : Int) - 1) (k - 1)) = (5 : Int) - 1) :=
  ⟨by decide, by decide, by decide, by decide, by decide, by decide,
    golomb_remainder_fits 6 5 (by decide) (by decide) (by decide) (by decide)⟩

/-- C28: for every gap sequence `g`, `get_run_length_decoding` returns the same
bytes and the same length for `g` and for `g` without its entries 0, whose
entries are all at least 1; in particular a 0 in front of `g` changes
nothing. -/
theorem run_length_decoding_zero_gaps (stale : Nat → Nat) (g : List Nat) :
    get_run_length_decoding stale g = get_run_length_decoding stale (drop_zero_gaps g) ∧
      (∀ x ∈ drop_zero_gaps g, 1 ≤ x) ∧
      get_run_length_decoding stale (0 :: g) = get_run_length_decoding stale g := by
  refine ⟨(get_run_length_decoding_drop_zero stale g).symm, ?_, ?_⟩
  · intro x hx
    unfold drop_zero_gaps at hx
    have := (List.mem_filter.mp hx).2
    simp at this
    omega
  · rw [← get_run_length_decoding_drop_zero stale (0 :: g),
      ← get_run_length_decoding_drop_zero stale g]
    rfl

/-- The gaps 0, 3, 0, 0, 6, 8, 0 and the gaps 3, 6, 8 give the same two
bytes. -/
theorem zero_gaps_example :
    drop_zero_gaps [0, 3, 0, 0, 6, 8, 0] = [3, 6, 8] ∧
      get_run_length_decoding (fun _ => 0) [0, 3, 0, 0, 6, 8, 0] = ([0x20, 0x80], 2) ∧
      get_run_length_decoding (fun _ => 0) [3, 6, 8] = ([0x20, 0x80], 2) := by decide

end GolombCoding
